import Mathlib

/-!
# go-ringbuffer: a growable circular byte buffer

Shallow embedding of `ringbuffer.go`.

* Go `int` values are modelled as `Int`.  In `New` the argument is an arbitrary
  machine integer, so the doubling `idealSize <<= 1` is modelled with 64-bit
  two's-complement wraparound.  In `Write`/`growCapacity` every integer is
  bounded by a slice length, so the arithmetic cannot leave the 64-bit range
  and is modelled without wraparound.
* `[]byte` is modelled as `List Byte`; an access outside `0 ≤ i < len` is the
  runtime panic `Fault.indexOutOfRange`.
* A `for` loop without a static bound runs on fuel; running out of fuel is
  `Fault.diverges`.
* `make([]byte, n)` in `New` fails above the allocation limit of the calling
  environment, which `New` takes as its first argument; the failure is
  `Fault.allocation`.  In `growCapacity`, called from a reachable state, the
  allocated length is below twice the sum of the lengths of two slices that
  exist (the storage and the payload), and the allocation is taken to succeed.
-/

deriving instance DecidableEq for Except

namespace Ringbuffer

/-- One Go `byte`. -/
abbrev Byte := Fin 256

/-- The ways a call can fail to return. -/
inductive Fault where
  | indexOutOfRange
  | diverges
  | allocation
  deriving DecidableEq, Repr

/-- The `error` values the package returns; `none` stands for `nil`. -/
inductive GoError where
  | EOF
  deriving DecidableEq, Repr

/-- The struct `RingBuffer` of `ringbuffer.go`. -/
structure RingBuffer where
  buf : List Byte
  mask : Int
  readIndex : Int
  writeIndex : Int
  deriving DecidableEq, Repr

/-- Go `len(x)` as an `int`. -/
def len (xs : List Byte) : Int := (xs.length : Int)

/-- Go `x & y` on `int`. -/
def band (x y : Int) : Int := Int.land x y

/-- Reduction of an integer to the 64-bit two's-complement range. -/
def wrap64 (x : Int) : Int := (x + 2 ^ 63) % 2 ^ 64 - 2 ^ 63

/-- Go `x << 1` on a 64-bit `int`. -/
def shl1 (x : Int) : Int := wrap64 (x * 2)

/-- Go `xs[i]`: `none` is the out-of-range panic. -/
def index (xs : List Byte) (i : Int) : Option Byte :=
  if 0 ≤ i then xs[i.toNat]? else none

/-- Go `xs[i] = b`: `none` is the out-of-range panic. -/
def store (xs : List Byte) (i : Int) (b : Byte) : Option (List Byte) :=
  if 0 ≤ i ∧ i < len xs then some (xs.set i.toNat b) else none

/-- Method `ReadableBytes` (ringbuffer.go:44-49). -/
def ReadableBytes (r : RingBuffer) : Int :=
  if r.writeIndex ≥ r.readIndex then r.writeIndex - r.readIndex
  else len r.buf - r.readIndex + r.writeIndex

/-- Method `WritableBytes` (ringbuffer.go:52-57). -/
def WritableBytes (r : RingBuffer) : Int :=
  if r.writeIndex ≥ r.readIndex then len r.buf - r.writeIndex + r.readIndex
  else r.readIndex - r.writeIndex

/-- The loop of `Read` (ringbuffer.go:18-25); the first argument is the number
of iterations left, `len(p) - i`. -/
def readLoop : Nat → RingBuffer → List Byte → Nat → Int →
    Except Fault (RingBuffer × List Byte × Int × Option GoError)
  | 0, r, p, _, _ => .ok (r, p, len p, none)
  | k + 1, r, p, i, readable =>
    if readable = 0 then .ok (r, p, (i : Int), some GoError.EOF)
    else
      match index r.buf r.readIndex with
      | none => .error Fault.indexOutOfRange
      | some b =>
        readLoop k { r with readIndex := band (r.readIndex + 1) r.mask }
          (p.set i b) (i + 1) (readable - 1)

/-- Method `Read` (ringbuffer.go:16-27): the new state, the destination after the
call, `n` and `err`. -/
def Read (r : RingBuffer) (p : List Byte) :
    Except Fault (RingBuffer × List Byte × Int × Option GoError) :=
  readLoop p.length r p 0 (ReadableBytes r)

/-- The loop `for newLen < newCap { newLen <<= 1 }` of `growCapacity`, on fuel.
Starting from a positive `newLen` the loop ends within `newCap` doublings;
starting from `newLen ≤ 0` below `newCap` it never ends. -/
def growLoop : Nat → Int → Int → Except Fault Int
  | 0, newLen, newCap => if newLen < newCap then .error Fault.diverges else .ok newLen
  | fuel + 1, newLen, newCap =>
    if newLen < newCap then growLoop fuel (newLen * 2) newCap else .ok newLen

/-- Method `growCapacity` (ringbuffer.go:60-68); `append(r.buf, make([]byte, n)...)`
is the old storage followed by `n` zero bytes. -/
def growCapacity (r : RingBuffer) (newCap : Int) : Except Fault RingBuffer :=
  let oldCap := len r.buf
  match growLoop newCap.toNat (oldCap * 2) newCap with
  | .error f => .error f
  | .ok newLen =>
    .ok { r with buf := r.buf ++ List.replicate (newLen - oldCap).toNat 0,
                 mask := newLen - 1 }

/-- The loop of `Write` (ringbuffer.go:36-39). -/
def writeLoop : List Byte → RingBuffer → Except Fault RingBuffer
  | [], r => .ok r
  | b :: rest, r =>
    match store r.buf r.writeIndex b with
    | none => .error Fault.indexOutOfRange
    | some buf' => writeLoop rest { r with buf := buf', writeIndex := r.writeIndex + 1 }

/-- Method `Write` (ringbuffer.go:30-41): the new state, `n` and `err`. -/
def Write (r : RingBuffer) (p : List Byte) :
    Except Fault (RingBuffer × Int × Option GoError) :=
  match (if WritableBytes r < len p
          then growCapacity r (len r.buf + len p - WritableBytes r) else .ok r) with
  | .error f => .error f
  | .ok r1 =>
    match writeLoop p { r1 with writeIndex := band r1.writeIndex r1.mask } with
    | .error f => .error f
    | .ok r2 => .ok (r2, len p, none)

/-- Method `Clear` (ringbuffer.go:71-74). -/
def Clear (r : RingBuffer) : RingBuffer :=
  { r with readIndex := 0, writeIndex := 0 }

/-- The loop `for idealSize < size { idealSize <<= 1 }` of `New`, on 64-bit
integers.  After 64 doublings a 64-bit value is 0 and stays 0, so a loop that
has not ended by then never ends. -/
def newLoop : Nat → Int → Int → Except Fault Int
  | 0, idealSize, size => if idealSize < size then .error Fault.diverges else .ok idealSize
  | fuel + 1, idealSize, size =>
    if idealSize < size then newLoop fuel (shl1 idealSize) size else .ok idealSize

/-- The largest allocation of the 64-bit Go runtime on linux/amd64, `1 << 48`
bytes (`runtime.maxAlloc`): above it `make([]byte, n)` panics with
`makeslice: len out of range`.  The limit in force is lower when memory is
short. -/
def maxAlloc : Int := 2 ^ 48

/-- Go `make([]byte, n)` where at most `limit` bytes can be allocated: `n`
zero bytes, or the failure of the allocation (the panic `makeslice: len out of
range`, or the runtime running out of memory). -/
def make (limit n : Int) : Except Fault (List Byte) :=
  if n < 0 ∨ limit < n then .error Fault.allocation
  else .ok (List.replicate n.toNat 0)

/-- Function `New` (ringbuffer.go:77-93), in an environment that can allocate
at most `limit` bytes. -/
def New (limit size : Int) : Except Fault RingBuffer :=
  match (if size < 8 then .ok 8
          else if size > 8 then newLoop 64 8 size
          else .ok size : Except Fault Int) with
  | .error f => .error f
  | .ok size' =>
    match make limit size' with
    | .error f => .error f
    | .ok buf => .ok { buf := buf, mask := size' - 1, readIndex := 0, writeIndex := 0 }

/-- The states a caller can hold: those obtained from `New`, in any
environment, by calls of `Write`, `Read` and `Clear` that returned. -/
inductive Reachable : RingBuffer → Prop
  | new (limit size : Int) (r : RingBuffer) : New limit size = .ok r → Reachable r
  | write (r r' : RingBuffer) (p : List Byte) (n : Int) (e : Option GoError) :
      Reachable r → Write r p = .ok (r', n, e) → Reachable r'
  | read (r r' : RingBuffer) (p p' : List Byte) (n : Int) (e : Option GoError) :
      Reachable r → Read r p = .ok (r', p', n, e) → Reachable r'
  | clear (r : RingBuffer) : Reachable r → Reachable (Clear r)

/-- Run `Write` and keep the state. -/
def writeThen (r : RingBuffer) (p : List Byte) : Except Fault RingBuffer :=
  (Write r p).map (fun x => x.1)

/-- Run `Read` into a zeroed destination of length `n` and keep the state. -/
def readThen (r : RingBuffer) (n : Nat) : Except Fault RingBuffer :=
  (Read r (List.replicate n 0)).map (fun x => x.1)

/-- The state `New(8)` returns. -/
def fresh8 : RingBuffer :=
  { buf := [0, 0, 0, 0, 0, 0, 0, 0], mask := 7, readIndex := 0, writeIndex := 0 }

/-- The state after `New(8)`, `Write` of the one byte 1. -/
def wrote1 : RingBuffer :=
  { buf := [1, 0, 0, 0, 0, 0, 0, 0], mask := 7, readIndex := 0, writeIndex := 1 }

/-- The state after `New(8)`, `Write` of six bytes 97. -/
def wrote6 : RingBuffer :=
  { buf := [97, 97, 97, 97, 97, 97, 0, 0], mask := 7, readIndex := 0, writeIndex := 6 }

/-- The state after `New(8)`, `Write` of six bytes 97, `Read` of two bytes. -/
def wrote6read2 : RingBuffer :=
  { buf := [97, 97, 97, 97, 97, 97, 0, 0], mask := 7, readIndex := 2, writeIndex := 6 }

/-- The state after `New(8)`, `Write` of eight bytes 97. -/
def wrote8 : RingBuffer :=
  { buf := [97, 97, 97, 97, 97, 97, 97, 97], mask := 7, readIndex := 0, writeIndex := 8 }

/-- The state after `New(8)`, `Write` of eight bytes 97, `Read` of six bytes. -/
def wrote8read6 : RingBuffer :=
  { buf := [97, 97, 97, 97, 97, 97, 97, 97], mask := 7, readIndex := 6, writeIndex := 8 }

/-- The state after `New(8)`, `Write` of eight bytes 97, `Read` of six bytes,
`Write` of four bytes 98: the unread bytes span the end of the storage. -/
def wrapped : RingBuffer :=
  { buf := [98, 98, 98, 98, 97, 97, 97, 97], mask := 7, readIndex := 6, writeIndex := 4 }

/-- The state after `New(8)`, `Write` of six bytes 97, `Write` of eighteen
bytes 98: the second write grew the storage from 8 to 32. -/
def wrote24 : RingBuffer :=
  { buf := List.replicate 6 97 ++ List.replicate 18 98 ++ List.replicate 8 0,
    mask := 31, readIndex := 0, writeIndex := 24 }

/-- A run of `Write` calls, one per payload, in order, with what each call
returned. -/
def writeAll : RingBuffer → List (List Byte) →
    Except Fault (RingBuffer × List (Int × Option GoError))
  | r, [] => .ok (r, [])
  | r, p :: ps =>
    match Write r p with
    | .error f => .error f
    | .ok (r1, n, e) =>
      match writeAll r1 ps with
      | .error f => .error f
      | .ok (r2, outs) => .ok (r2, (n, e) :: outs)

/-- The storage after the optional growth to length `2 ^ k'`. -/
def grown (r : RingBuffer) (k k' : Nat) : List Byte :=
  r.buf ++ List.replicate (2 ^ k' - 2 ^ k) 0

/-- What holds of every state a caller can hold: the storage length is a
power of two `2 ^ k` with `k ≥ 3`, the mask is `2 ^ k - 1`, the read index is
in `[0, 2 ^ k)` and the write index in `[0, 2 ^ k]`. -/
def Inv (r : RingBuffer) : Prop :=
  ∃ k ri wi : Nat, 3 ≤ k ∧ r.buf.length = 2 ^ k ∧ r.mask = 2 ^ k - 1 ∧
    r.readIndex = (ri : Int) ∧ ri < 2 ^ k ∧ r.writeIndex = (wi : Int) ∧ wi ≤ 2 ^ k

/-- The storage shape: the storage length is a power of two, at least 8, and
the mask is the storage length minus 1. -/
def Shape (r : RingBuffer) : Prop :=
  ∃ k : Nat, len r.buf = 2 ^ k ∧ 8 ≤ len r.buf ∧ r.mask = len r.buf - 1

/-! ## Arithmetic of masks and doubling -/

theorem band_natCast (a b : Nat) : band (a : Int) (b : Int) = ((a &&& b : Nat) : Int) := rfl

theorem band_mask (n k : Nat) : band (n : Int) ((2 : Int) ^ k - 1) = ((n % 2 ^ k : Nat) : Int) := by
  have h : ((2 : Int) ^ k - 1) = ((2 ^ k - 1 : Nat) : Int) := by
    have : 1 ≤ 2 ^ k := Nat.one_le_two_pow
    push_cast [Nat.cast_sub this]
    rfl
  rw [h, band_natCast, Nat.and_pow_two_sub_one_eq_mod]

theorem wrap64_of_range (x : Int) (h0 : -(2 ^ 63) ≤ x) (h1 : x < 2 ^ 63) : wrap64 x = x := by
  unfold wrap64
  rw [Int.emod_eq_of_lt (by omega) (by omega)]
  omega

theorem growLoop_spec (fuel : Nat) : ∀ (n c : Int), 0 < n → c ≤ n * 2 ^ fuel →
    ∃ j : Nat, growLoop fuel n c = .ok (n * 2 ^ j) ∧ c ≤ n * 2 ^ j ∧
      (j = 0 ∨ n * 2 ^ (j - 1) < c) := by
  induction fuel with
  | zero =>
    intro n c _ hc
    refine ⟨0, ?_, by simpa using hc, Or.inl rfl⟩
    have : ¬ n < c := by simpa using hc
    simp [growLoop, this]
  | succ f ih =>
    intro n c hn hc
    by_cases hlt : n < c
    · obtain ⟨j, hj, hge, hmin⟩ := ih (n * 2) c (by omega) (by rw [pow_succ] at hc; linarith)
      refine ⟨j + 1, ?_, ?_, Or.inr ?_⟩
      · simp only [growLoop, hlt, if_true, hj]
        rw [pow_succ]; congr 1; ring
      · rw [pow_succ]; linarith
      · rcases hmin with h0 | h
        · subst h0; simpa using hlt
        · have hj1 : 1 ≤ j := by
            rcases Nat.eq_zero_or_pos j with h0 | h0
            · subst h0; simp at h; omega
            · exact h0
          have : j + 1 - 1 = (j - 1) + 1 := by omega
          rw [this, pow_succ]; linarith
    · exact ⟨0, by simp [growLoop, hlt], by simpa using not_lt.mp hlt, Or.inl rfl⟩

theorem le_mul_two_pow_toNat (n c : Int) (hn : 0 < n) : c ≤ n * 2 ^ c.toNat := by
  have h1 : (c.toNat : Int) < 2 ^ c.toNat := by exact_mod_cast Nat.lt_two_pow c.toNat
  have h2 : c ≤ (c.toNat : Int) := Int.self_le_toNat c
  have h3 : (0 : Int) < 2 ^ c.toNat := by positivity
  nlinarith

theorem shl1_two_pow (k : Nat) (hk : k < 62) : shl1 ((2 : Int) ^ k) = 2 ^ (k + 1) := by
  have h1 : (2 : Int) ^ (k + 1) ≤ 2 ^ 62 := pow_le_pow_right₀ (by norm_num) (by omega)
  have h2 : (0 : Int) < 2 ^ (k + 1) := by positivity
  unfold shl1
  rw [← pow_succ]
  exact wrap64_of_range _ (by omega) (by omega)

theorem newLoop_spec (size : Int) (hs : size ≤ 2 ^ 62) (fuel : Nat) :
    ∀ k : Nat, k ≤ 62 → 62 ≤ fuel + k →
    ∃ j : Nat, k ≤ j ∧ j ≤ 62 ∧ newLoop fuel (2 ^ k) size = .ok (2 ^ j) ∧ size ≤ 2 ^ j ∧
      (j = k ∨ 2 ^ (j - 1) < size) := by
  induction fuel with
  | zero =>
    intro k hk hf
    have hk62 : k = 62 := by omega
    subst hk62
    have hn : ¬ ((2 : Int) ^ 62 < size) := not_lt.mpr hs
    exact ⟨62, le_refl _, le_refl _, by simp only [newLoop, hn, if_false], hs, Or.inl rfl⟩
  | succ f ih =>
    intro k hk hf
    by_cases hlt : (2 : Int) ^ k < size
    · have hk62 : k < 62 := by
        by_contra hcon
        have : k = 62 := by omega
        subst this
        omega
      obtain ⟨j, hkj, hj, hres, hge, hmin⟩ := ih (k + 1) (by omega) (by omega)
      refine ⟨j, by omega, hj, ?_, hge, Or.inr ?_⟩
      · simp only [newLoop, hlt, if_true, shl1_two_pow k hk62, hres]
      · rcases hmin with h0 | h
        · subst h0; simpa using hlt
        · exact h
    · exact ⟨k, le_refl _, hk, by simp [newLoop, hlt], not_lt.mp hlt, Or.inl rfl⟩

theorem make_two_pow (limit : Int) (k : Nat) :
    make limit (2 ^ k) =
      if (2 : Int) ^ k ≤ limit then .ok (List.replicate (2 ^ k) 0)
      else .error Fault.allocation := by
  have hpos : ¬ ((2 : Int) ^ k < 0) := not_lt.mpr (by positivity)
  have hnat : ((2 : Int) ^ k).toNat = 2 ^ k := by
    have : ((2 : Int) ^ k) = ((2 ^ k : Nat) : Int) := by push_cast; rfl
    rw [this, Int.toNat_natCast]
  unfold make
  by_cases hl : (2 : Int) ^ k ≤ limit
  · rw [if_pos hl, if_neg (by rintro (h | h) <;> omega), hnat]
  · rw [if_neg hl, if_pos (Or.inr (by omega))]

/-- Function `New` in closed form for `size ≤ 2 ^ 62`: the doubling loop ends
at the least power of two `2 ^ k` that is at least `max(size, 8)`, and `New`
returns storage of that length exactly when that many bytes can be allocated. -/
theorem New_eq (limit size : Int) (hs : size ≤ 2 ^ 62) :
    ∃ k : Nat, 3 ≤ k ∧ max size 8 ≤ 2 ^ k ∧ (k = 3 ∨ (2 : Int) ^ (k - 1) < max size 8) ∧
      New limit size =
        if (2 : Int) ^ k ≤ limit then
          .ok { buf := List.replicate (2 ^ k) 0, mask := 2 ^ k - 1,
                readIndex := 0, writeIndex := 0 }
        else .error Fault.allocation := by
  have hfin : ∀ k : Nat,
      (match make limit (2 ^ k) with
        | .error f => (.error f : Except Fault RingBuffer)
        | .ok buf => .ok { buf := buf, mask := 2 ^ k - 1, readIndex := 0, writeIndex := 0 }) =
      if (2 : Int) ^ k ≤ limit then
        .ok { buf := List.replicate (2 ^ k) 0, mask := 2 ^ k - 1,
              readIndex := 0, writeIndex := 0 }
      else .error Fault.allocation := by
    intro k
    rw [make_two_pow]
    split_ifs <;> rfl
  by_cases h8 : size < 8
  · refine ⟨3, le_refl _, ?_, Or.inl rfl, ?_⟩
    · rw [max_eq_right (by omega)]; norm_num
    · rw [← hfin 3]
      simp [New, h8]
  · by_cases h9 : size > 8
    · obtain ⟨j, hkj, _, hres, hge, hmin⟩ := newLoop_spec size hs 64 3 (by omega) (by omega)
      have hres' : newLoop 64 8 size = .ok (2 ^ j) := by simpa using hres
      have hmax : max size 8 = size := max_eq_left (by omega)
      refine ⟨j, hkj, by rw [hmax]; exact hge, ?_, ?_⟩
      · rcases hmin with h | h
        · exact Or.inl h
        · exact Or.inr (by rw [hmax]; exact h)
      · rw [← hfin j]
        simp [New, h8, h9, hres']
    · have : size = 8 := by omega
      subst this
      refine ⟨3, le_refl _, by norm_num, Or.inl rfl, ?_⟩
      rw [← hfin 3]
      simp [New]

/-! ## The write loop -/

theorem set_splice {α : Type} (buf : List α) (w : Nat) (b : α) (rest : List α)
    (h : w + (rest.length + 1) ≤ buf.length) :
    (buf.set w b).take (w + 1) ++ rest ++ (buf.set w b).drop (w + 1 + rest.length) =
      buf.take w ++ b :: rest ++ buf.drop (w + (rest.length + 1)) := by
  have hw : w < buf.length := by omega
  rw [List.drop_set_of_lt b buf (by omega : w < w + 1 + rest.length)]
  have h1 : (buf.set w b).take (w + 1) = buf.take w ++ [b] := by
    rw [List.set_eq_take_append_cons_drop, if_pos hw]
    rw [List.take_append_eq_append_take]
    simp [List.length_take, Nat.min_eq_left (Nat.le_of_lt hw)]
  have e : w + 1 + rest.length = w + (rest.length + 1) := by omega
  rw [h1, e]
  simp

/-- The write loop in closed form: it returns exactly when the linear run
`[writeIndex, writeIndex + len p)` lies inside the storage (or `p` is empty),
and then it has spliced `p` into the storage at `writeIndex`. -/
theorem writeLoop_eq (p : List Byte) : ∀ r : RingBuffer,
    writeLoop p r =
      if p = [] ∨ (0 ≤ r.writeIndex ∧ r.writeIndex + len p ≤ len r.buf) then
        .ok { r with
              buf := r.buf.take r.writeIndex.toNat ++ p ++
                       r.buf.drop (r.writeIndex.toNat + p.length),
              writeIndex := r.writeIndex + len p }
      else .error Fault.indexOutOfRange := by
  induction p with
  | nil => intro r; simp [writeLoop, len]
  | cons b rest ih =>
    intro r
    by_cases hin : 0 ≤ r.writeIndex ∧ r.writeIndex < len r.buf
    · obtain ⟨w, hw⟩ := Int.eq_ofNat_of_zero_le hin.1
      have hlt : w < r.buf.length := by
        have := hin.2; rw [hw] at this; simpa [len] using this
      have hstep : writeLoop (b :: rest) r = writeLoop rest
          { r with buf := r.buf.set r.writeIndex.toNat b, writeIndex := r.writeIndex + 1 } := by
        simp only [writeLoop, store, hin, and_self, if_true]
      rw [hstep, ih]
      by_cases hfit : r.writeIndex + len (b :: rest) ≤ len r.buf
      · have hfitN : w + (rest.length + 1) ≤ r.buf.length := by
          have := hfit; rw [hw] at this; simp only [len, List.length_cons] at this
          exact_mod_cast this
        have c1 : rest = [] ∨ (0 ≤ r.writeIndex + 1 ∧
            r.writeIndex + 1 + len rest ≤ len (r.buf.set r.writeIndex.toNat b)) := by
          right
          simp only [len, List.length_set, hw]
          constructor
          · omega
          · exact_mod_cast (by omega : w + 1 + rest.length ≤ r.buf.length)
        have c2 : b :: rest = [] ∨ (0 ≤ r.writeIndex ∧
            r.writeIndex + len (b :: rest) ≤ len r.buf) := Or.inr ⟨hin.1, hfit⟩
        rw [if_pos c1, if_pos c2]
        have t1 : (r.writeIndex + 1).toNat = w + 1 := by rw [hw]; omega
        have t0 : r.writeIndex.toNat = w := by rw [hw]; omega
        simp only [t1, t0, set_splice r.buf w b rest hfitN, len, List.length_cons]
        congr 2
        push_cast
        ring
      · have c1 : ¬ (rest = [] ∨ (0 ≤ r.writeIndex + 1 ∧
            r.writeIndex + 1 + len rest ≤ len (r.buf.set r.writeIndex.toNat b))) := by
          rintro (h | ⟨_, h⟩)
          · subst h
            apply hfit
            simp only [len, List.length_cons, List.length_nil] at *
            omega
          · apply hfit
            simp only [len, List.length_cons, List.length_set] at *
            omega
        have c2 : ¬ (b :: rest = [] ∨ (0 ≤ r.writeIndex ∧
            r.writeIndex + len (b :: rest) ≤ len r.buf)) := by
          rintro (h | ⟨_, h⟩)
          · exact absurd h (by simp)
          · exact hfit h
        rw [if_neg c1, if_neg c2]
    · have c2 : ¬ (b :: rest = [] ∨ (0 ≤ r.writeIndex ∧
          r.writeIndex + len (b :: rest) ≤ len r.buf)) := by
        rintro (h | ⟨h0, h⟩)
        · exact absurd h (by simp)
        · apply hin
          refine ⟨h0, ?_⟩
          simp only [len, List.length_cons] at *
          omega
      rw [if_neg c2]
      simp only [writeLoop, store, hin, if_false]

/-! ## The read loop -/

theorem index_natCast (xs : List Byte) (i : Nat) : index xs (i : Int) = xs[i]? := by
  simp [index]

/-- The read loop on a well-shaped buffer: with `m` bytes readable and `n`
iterations left it copies `min n m` bytes, taken from the storage in ring
order, to the positions `i, i+1, ...` of the destination. -/
theorem readLoop_spec (k : Nat) (n : Nat) :
    ∀ (r : RingBuffer) (p : List Byte) (i ri m : Nat),
      r.buf.length = 2 ^ k → r.mask = 2 ^ k - 1 → r.readIndex = (ri : Int) → ri < 2 ^ k →
      i + n ≤ p.length →
      ∃ p' : List Byte,
        readLoop n r p i (m : Int) =
          .ok ({ r with readIndex := (((ri + min n m) % 2 ^ k : Nat) : Int) }, p',
               (if m < n then ((i + m : Nat) : Int) else len p),
               (if m < n then some GoError.EOF else none)) ∧
        p'.length = p.length ∧
        ∀ j : Nat, p'[j]? =
          if i ≤ j ∧ j < i + min n m then r.buf[(ri + (j - i)) % 2 ^ k]? else p[j]? := by
  induction n with
  | zero =>
    intro r p i ri m _ _ hri hlt _
    refine ⟨p, ?_, rfl, ?_⟩
    · have : ((ri % 2 ^ k : Nat) : Int) = r.readIndex := by
        rw [Nat.mod_eq_of_lt hlt, hri]
      simp [readLoop, this]
    · intro j
      have : ¬ (i ≤ j ∧ j < i + min 0 m) := by simp
      rw [if_neg this]
  | succ n ih =>
    intro r p i ri m hlen hmask hri hlt hip
    rcases Nat.eq_zero_or_pos m with hm | hm
    · subst hm
      refine ⟨p, ?_, rfl, ?_⟩
      · have : ((ri % 2 ^ k : Nat) : Int) = r.readIndex := by
          rw [Nat.mod_eq_of_lt hlt, hri]
        simp [readLoop, this]
      · intro j
        have : ¬ (i ≤ j ∧ j < i + min (n + 1) 0) := by simp
        rw [if_neg this]
    · obtain ⟨m', rfl⟩ : ∃ m', m = m' + 1 := ⟨m - 1, by omega⟩
      have hlt' : ri < r.buf.length := by rw [hlen]; exact hlt
      have hb : index r.buf r.readIndex = some (r.buf.get ⟨ri, hlt'⟩) := by
        rw [hri, index_natCast]; simp
      have hne : ¬ (((m' + 1 : Nat) : Int) = 0) := by omega
      have hband : band (r.readIndex + 1) r.mask = (((ri + 1) % 2 ^ k : Nat) : Int) := by
        rw [hri, hmask]
        exact_mod_cast band_mask (ri + 1) k
      have hsub : ((m' + 1 : Nat) : Int) - 1 = (m' : Int) := by push_cast; ring
      have hstep : readLoop (n + 1) r p i ((m' + 1 : Nat) : Int) =
          readLoop n { r with readIndex := (((ri + 1) % 2 ^ k : Nat) : Int) }
            (p.set i (r.buf.get ⟨ri, hlt'⟩)) (i + 1) (m' : Int) := by
        simp only [readLoop, hne, if_false, hb, hband, hsub]
      obtain ⟨p', hres, hlen', hpt⟩ :=
        ih { r with readIndex := (((ri + 1) % 2 ^ k : Nat) : Int) }
          (p.set i (r.buf.get ⟨ri, hlt'⟩)) (i + 1) ((ri + 1) % 2 ^ k) m'
          hlen hmask rfl (Nat.mod_lt _ (by positivity)) (by simp only [List.length_set]; omega)
      refine ⟨p', ?_, by rw [hlen', List.length_set], ?_⟩
      · rw [hstep, hres]
        have e1 : ((ri + 1) % 2 ^ k + min n m') % 2 ^ k = (ri + min (n + 1) (m' + 1)) % 2 ^ k := by
          rw [Nat.mod_add_mod, Nat.succ_min_succ]
          congr 1
          omega
        have e2 : (m' < n) = (m' + 1 < n + 1) := by simp
        simp only [e1, len, List.length_set]
        by_cases hc : m' < n
        · have hc' : m' + 1 < n + 1 := by omega
          simp only [hc, hc', if_true]
          congr 3
          push_cast
          rw [add_assoc, add_comm (1 : Int)]
        · have hc' : ¬ (m' + 1 < n + 1) := by omega
          simp only [hc, hc', if_false]
      · intro j
        rw [hpt j, Nat.succ_min_succ]
        by_cases hji : j = i
        · subst hji
          have c1 : ¬ (j + 1 ≤ j ∧ j < j + 1 + min n m') := by omega
          have c2 : j ≤ j ∧ j < j + (min n m' + 1) := by omega
          rw [if_neg c1, if_pos c2]
          have hjp : j < p.length := by omega
          simp [List.getElem?_set, hjp, Nat.mod_eq_of_lt hlt, hlt']
        · by_cases hin : i + 1 ≤ j ∧ j < i + 1 + min n m'
          · have c2 : i ≤ j ∧ j < i + (min n m' + 1) := by omega
            rw [if_pos hin, if_pos c2, Nat.mod_add_mod]
            have : ri + 1 + (j - (i + 1)) = ri + (j - i) := by omega
            rw [this]
          · have c2 : ¬ (i ≤ j ∧ j < i + (min n m' + 1)) := by omega
            rw [if_neg hin, if_neg c2]
            simp [List.getElem?_set, Ne.symm hji]

/-! ## Growth and `Write` on a well-shaped buffer -/

theorem two_pow_toNat (k : Nat) : ((2 : Int) ^ k).toNat = 2 ^ k := by
  have : ((2 : Int) ^ k) = ((2 ^ k : Nat) : Int) := by push_cast; rfl
  rw [this, Int.toNat_natCast]

/-- The optional growth at the head of `Write`: on storage of length `2 ^ k`
it always returns, leaving storage of length `2 ^ k'` that extends the old one
by zero bytes, with `k' = k` when there is room and otherwise `2 ^ k'` the
least power of two above `2 ^ k` that reaches the requested capacity. -/
theorem grow_step (r : RingBuffer) (k : Nat) (p : List Byte)
    (hlen : r.buf.length = 2 ^ k) (hmask : r.mask = 2 ^ k - 1) :
    ∃ k' : Nat, k ≤ k' ∧
      (if WritableBytes r < len p then
         k < k' ∧ len r.buf + len p - WritableBytes r ≤ 2 ^ k' ∧
           (k' = k + 1 ∨ (2 : Int) ^ (k' - 1) < len r.buf + len p - WritableBytes r)
       else k' = k) ∧
      (if WritableBytes r < len p
        then growCapacity r (len r.buf + len p - WritableBytes r) else .ok r) =
        .ok { r with buf := r.buf ++ List.replicate (2 ^ k' - 2 ^ k) 0, mask := 2 ^ k' - 1 } := by
  have hlenI : len r.buf = 2 ^ k := by simp [len, hlen]
  by_cases hg : WritableBytes r < len p
  · obtain ⟨j, hj, hge, hmin⟩ := growLoop_spec (len r.buf + len p - WritableBytes r).toNat
      (len r.buf * 2) (len r.buf + len p - WritableBytes r)
      (by rw [hlenI]; positivity) (le_mul_two_pow_toNat _ _ (by rw [hlenI]; positivity))
    have hpow : len r.buf * 2 * 2 ^ j = 2 ^ (k + 1 + j) := by
      rw [hlenI, pow_add, pow_succ]
    rw [hpow] at hj hge
    refine ⟨k + 1 + j, by omega, ?_, ?_⟩
    · rw [if_pos hg]
      refine ⟨by omega, hge, ?_⟩
      rcases hmin with h0 | h
      · left; omega
      · right
        have e : k + 1 + j - 1 = k + 1 + (j - 1) := by
          have : j ≠ 0 := by
            rintro rfl
            simp only [Nat.zero_sub, pow_zero, mul_one] at h
            rw [← hpow] at hge
            simp only [pow_zero, mul_one] at hge
            omega
          omega
        rw [e, pow_add, pow_succ, ← hlenI]
        exact h
    · rw [if_pos hg]
      have hle : 2 ^ k ≤ 2 ^ (k + 1 + j) := Nat.pow_le_pow_right (by norm_num) (by omega)
      have hsub : ((2 : Int) ^ (k + 1 + j) - len r.buf).toNat = 2 ^ (k + 1 + j) - 2 ^ k := by
        rw [hlenI]
        have : ((2 : Int) ^ (k + 1 + j) - 2 ^ k) = ((2 ^ (k + 1 + j) - 2 ^ k : Nat) : Int) := by
          push_cast [Nat.cast_sub hle]; rfl
        rw [this, Int.toNat_natCast]
      simp only [growCapacity, hj, hsub]
  · refine ⟨k, le_refl _, by rw [if_neg hg], ?_⟩
    rw [if_neg hg]
    have : r.buf ++ List.replicate (2 ^ k - 2 ^ k) (0 : Byte) = r.buf := by simp
    rw [this, ← hmask]

theorem grown_length (r : RingBuffer) (k k' : Nat) (hlen : r.buf.length = 2 ^ k)
    (hk : k ≤ k') : (grown r k k').length = 2 ^ k' := by
  have hle : 2 ^ k ≤ 2 ^ k' := Nat.pow_le_pow_right (by norm_num) hk
  simp only [grown, List.length_append, List.length_replicate, hlen]
  omega

/-- Method `Write` in closed form on storage of length `2 ^ k` with a non-negative
write index `wi`: after the optional growth to `2 ^ k'` the write index is
reduced to `wi % 2 ^ k'`; the call returns exactly when the payload is empty
or the linear run from there lies inside the storage, and otherwise panics. -/
theorem Write_eq (r : RingBuffer) (k wi : Nat) (p : List Byte)
    (hlen : r.buf.length = 2 ^ k) (hmask : r.mask = 2 ^ k - 1)
    (hw : r.writeIndex = (wi : Int)) :
    ∃ k' : Nat, k ≤ k' ∧
      (if WritableBytes r < len p then
         k < k' ∧ len r.buf + len p - WritableBytes r ≤ 2 ^ k' ∧
           (k' = k + 1 ∨ (2 : Int) ^ (k' - 1) < len r.buf + len p - WritableBytes r)
       else k' = k) ∧
      Write r p =
        if p = [] ∨ wi % 2 ^ k' + p.length ≤ 2 ^ k' then
          .ok ({ buf := (grown r k k').take (wi % 2 ^ k') ++ p ++
                          (grown r k k').drop (wi % 2 ^ k' + p.length),
                 mask := 2 ^ k' - 1,
                 readIndex := r.readIndex,
                 writeIndex := ((wi % 2 ^ k' + p.length : Nat) : Int) }, len p, none)
        else .error Fault.indexOutOfRange := by
  obtain ⟨k', hk, hcond, hstep⟩ := grow_step r k p hlen hmask
  refine ⟨k', hk, hcond, ?_⟩
  have hB : (grown r k k').length = 2 ^ k' := grown_length r k k' hlen hk
  have hband : band (wi : Int) ((2 : Int) ^ k' - 1) = ((wi % 2 ^ k' : Nat) : Int) :=
    band_mask wi k'
  simp only [Write, hstep, writeLoop_eq, hw, hband]
  have hiff : (p = [] ∨ (0 ≤ ((wi % 2 ^ k' : Nat) : Int) ∧
      ((wi % 2 ^ k' : Nat) : Int) + len p ≤ len (r.buf ++ List.replicate (2 ^ k' - 2 ^ k) 0))) ↔
      (p = [] ∨ wi % 2 ^ k' + p.length ≤ 2 ^ k') := by
    have hB' : (r.buf ++ List.replicate (2 ^ k' - 2 ^ k) (0 : Byte)).length = 2 ^ k' := hB
    simp only [len, hB']
    constructor
    · rintro (h | ⟨_, h⟩)
      · exact Or.inl h
      · exact Or.inr (by exact_mod_cast h)
    · rintro (h | h)
      · exact Or.inl h
      · exact Or.inr ⟨by positivity, by exact_mod_cast h⟩
  by_cases hc : p = [] ∨ wi % 2 ^ k' + p.length ≤ 2 ^ k'
  · rw [if_pos hc, if_pos (hiff.mpr hc)]
    simp only [grown, len, Int.toNat_natCast]
    push_cast
    rfl
  · rw [if_neg hc, if_neg (fun h => hc (hiff.mp h))]

/-! ## The invariant of reachable states -/

theorem newLoop_zero (size : Int) (hs : 0 < size) (fuel : Nat) :
    newLoop fuel 0 size = .error Fault.diverges := by
  induction fuel with
  | zero => simp [newLoop, hs]
  | succ f ih =>
    have : shl1 0 = 0 := by decide
    simp [newLoop, hs, this, ih]

theorem newLoop_diverges (size : Int) (hs : 2 ^ 62 < size) (fuel : Nat) :
    ∀ k : Nat, k ≤ 62 → newLoop fuel (2 ^ k) size = .error Fault.diverges := by
  induction fuel with
  | zero =>
    intro k hk
    have h1 : (2 : Int) ^ k ≤ 2 ^ 62 := pow_le_pow_right₀ (by norm_num) hk
    have h2 : (2 : Int) ^ k < size := by omega
    simp only [newLoop, h2, if_true]
  | succ f ih =>
    intro k hk
    have h1 : (2 : Int) ^ k ≤ 2 ^ 62 := pow_le_pow_right₀ (by norm_num) hk
    have h2 : (2 : Int) ^ k < size := by omega
    simp only [newLoop, h2, if_true]
    rcases Nat.lt_or_ge k 62 with hlt | hge
    · rw [shl1_two_pow k hlt]
      exact ih (k + 1) (by omega)
    · have hk62 : k = 62 := by omega
      subst hk62
      have e1 : shl1 ((2 : Int) ^ 62) = -(2 ^ 63) := by decide
      have e2 : shl1 (-(2 ^ 63) : Int) = 0 := by decide
      have h3 : (-(2 ^ 63) : Int) < size := by omega
      rw [e1]
      cases f with
      | zero => simp only [newLoop, h3, if_true]
      | succ g =>
        simp only [newLoop, h3, if_true, e2]
        exact newLoop_zero size (by omega) g

theorem New_ok_bound (limit size : Int) (r : RingBuffer) (h : New limit size = .ok r) :
    size ≤ 2 ^ 62 := by
  by_contra hcon
  have hs : (2 : Int) ^ 62 < size := by omega
  have h8 : ¬ size < 8 := by omega
  have h9 : size > 8 := by omega
  have hd : newLoop 64 8 size = .error Fault.diverges := by
    simpa using newLoop_diverges size hs 64 3 (by omega)
  simp [New, h8, h9, hd] at h

/-- What `New` returns, when it returns: zeroed storage of length `2 ^ k` with
`k ≥ 3`, the mask `2 ^ k - 1` and both indices 0. -/
theorem New_ok_form (limit size : Int) (r : RingBuffer) (h : New limit size = .ok r) :
    ∃ k : Nat, 3 ≤ k ∧
      r = { buf := List.replicate (2 ^ k) 0, mask := 2 ^ k - 1,
            readIndex := 0, writeIndex := 0 } := by
  obtain ⟨k, hk, _, _, heq⟩ := New_eq limit size (New_ok_bound limit size r h)
  rw [heq] at h
  by_cases hl : (2 : Int) ^ k ≤ limit
  · rw [if_pos hl] at h
    injection h with h
    exact ⟨k, hk, h.symm⟩
  · rw [if_neg hl] at h
    exact absurd h (by simp)

theorem New_inv (limit size : Int) (r : RingBuffer) (h : New limit size = .ok r) : Inv r := by
  obtain ⟨k, hk, hr⟩ := New_ok_form limit size r h
  subst hr
  exact ⟨k, 0, 0, hk, by simp, rfl, rfl, by positivity, rfl, by positivity⟩

theorem Clear_inv (r : RingBuffer) (h : Inv r) : Inv (Clear r) := by
  obtain ⟨k, _, _, hk, hlen, hmask, _, _, _, _⟩ := h
  exact ⟨k, 0, 0, hk, hlen, hmask, rfl, by positivity, rfl, by positivity⟩

theorem Write_inv (r r' : RingBuffer) (p : List Byte) (n : Int) (e : Option GoError)
    (h : Inv r) (hw : Write r p = .ok (r', n, e)) : Inv r' := by
  obtain ⟨k, ri, wi, hk, hlen, hmask, hri, hrlt, hwi, _⟩ := h
  obtain ⟨k', hkk, _, heq⟩ := Write_eq r k wi p hlen hmask hwi
  have hB : (grown r k k').length = 2 ^ k' := grown_length r k k' hlen hkk
  have hle : 2 ^ k ≤ 2 ^ k' := Nat.pow_le_pow_right (by norm_num) hkk
  have hmod : wi % 2 ^ k' < 2 ^ k' := Nat.mod_lt _ (by positivity)
  rw [heq] at hw
  by_cases hc : p = [] ∨ wi % 2 ^ k' + p.length ≤ 2 ^ k'
  · rw [if_pos hc] at hw
    injection hw with hw
    injection hw with hw _
    subst hw
    refine ⟨k', ri, wi % 2 ^ k' + p.length, by omega, ?_, rfl, hri, by omega, rfl, ?_⟩
    · simp only [List.length_append, List.length_take, List.length_drop, hB]
      rcases hc with h0 | h1
      · subst h0; simp; omega
      · omega
    · rcases hc with h0 | h1
      · subst h0; simp; omega
      · exact h1
  · rw [if_neg hc] at hw
    exact absurd hw (by simp)

/-- The value of `ReadableBytes` in a state satisfying the invariant is a
natural number not above the storage length. -/
theorem Readable_nat (r : RingBuffer) (k ri wi : Nat) (hlen : r.buf.length = 2 ^ k)
    (hri : r.readIndex = (ri : Int)) (hrlt : ri < 2 ^ k)
    (hwi : r.writeIndex = (wi : Int)) (hwle : wi ≤ 2 ^ k) :
    ReadableBytes r = (((if ri ≤ wi then wi - ri else 2 ^ k - ri + wi) : Nat) : Int) ∧
      (if ri ≤ wi then wi - ri else 2 ^ k - ri + wi) ≤ 2 ^ k := by
  have hlenI : len r.buf = ((2 ^ k : Nat) : Int) := by simp [len, hlen]
  unfold ReadableBytes
  rw [hri, hwi, hlenI]
  by_cases h : ri ≤ wi
  · have h' : (wi : Int) ≥ (ri : Int) := by exact_mod_cast h
    rw [if_pos h', if_pos h]
    exact ⟨by omega, by omega⟩
  · have h' : ¬ ((wi : Int) ≥ (ri : Int)) := by
      intro hc; exact h (by exact_mod_cast hc)
    rw [if_neg h', if_neg h]
    exact ⟨by omega, by omega⟩

/-- Method `Read` in closed form on a well-shaped buffer with `m` readable bytes. -/
theorem Read_eq (r : RingBuffer) (k ri m : Nat) (p : List Byte)
    (hlen : r.buf.length = 2 ^ k) (hmask : r.mask = 2 ^ k - 1)
    (hri : r.readIndex = (ri : Int)) (hrlt : ri < 2 ^ k)
    (hm : ReadableBytes r = (m : Int)) :
    ∃ p' : List Byte,
      Read r p =
        .ok ({ r with readIndex := (((ri + min p.length m) % 2 ^ k : Nat) : Int) }, p',
             (if m < p.length then (m : Int) else len p),
             (if m < p.length then some GoError.EOF else none)) ∧
      p'.length = p.length ∧
      ∀ j : Nat, p'[j]? =
        if j < min p.length m then r.buf[(ri + j) % 2 ^ k]? else p[j]? := by
  obtain ⟨p', hres, hl, hpt⟩ :=
    readLoop_spec k p.length r p 0 ri m hlen hmask hri hrlt (by omega)
  refine ⟨p', ?_, hl, ?_⟩
  · unfold Read
    rw [hm, hres]
    simp
  · intro j
    rw [hpt j]
    simp

theorem Read_inv (r r' : RingBuffer) (p p' : List Byte) (n : Int) (e : Option GoError)
    (h : Inv r) (hr : Read r p = .ok (r', p', n, e)) : Inv r' := by
  obtain ⟨k, ri, wi, hk, hlen, hmask, hri, hrlt, hwi, hwle⟩ := h
  obtain ⟨hm, _⟩ := Readable_nat r k ri wi hlen hri hrlt hwi hwle
  obtain ⟨q, heq, _, _⟩ := Read_eq r k ri _ p hlen hmask hri hrlt hm
  rw [heq] at hr
  injection hr with hr
  injection hr with hr _
  subst hr
  exact ⟨k, _, wi, hk, hlen, hmask, rfl, Nat.mod_lt _ (by positivity), hwi, hwle⟩

theorem Reachable_inv (r : RingBuffer) (h : Reachable r) : Inv r := by
  induction h with
  | new limit size r hnew => exact New_inv limit size r hnew
  | write r r' p n e _ hw ih => exact Write_inv r r' p n e ih hw
  | read r r' p p' n e _ hr ih => exact Read_inv r r' p p' n e ih hr
  | clear r _ ih => exact Clear_inv r ih

/-! ## Appending to a buffer whose read index is 0 -/

/-- One `Write` on a buffer with read index 0 and write index `W`, where the
payload is non-empty or the buffer is not full: it returns, and the first
`W + len P` bytes of the storage are the old first `W` bytes followed by `P`. -/
theorem append_step (r : RingBuffer) (k W : Nat) (P : List Byte)
    (hlen : r.buf.length = 2 ^ k) (hmask : r.mask = 2 ^ k - 1)
    (hri : r.readIndex = 0) (hwi : r.writeIndex = (W : Int)) (hW : W ≤ 2 ^ k)
    (hP : P ≠ [] ∨ W < 2 ^ k) :
    ∃ (r' : RingBuffer) (k' : Nat), k ≤ k' ∧ Write r P = .ok (r', len P, none) ∧
      r'.buf.length = 2 ^ k' ∧ r'.mask = 2 ^ k' - 1 ∧ r'.readIndex = 0 ∧
      r'.writeIndex = ((W + P.length : Nat) : Int) ∧ W + P.length ≤ 2 ^ k' ∧
      r'.buf.take (W + P.length) = r.buf.take W ++ P := by
  obtain ⟨k', hkk, hcond, heq⟩ := Write_eq r k W P hlen hmask hwi
  have hB : (grown r k k').length = 2 ^ k' := grown_length r k k' hlen hkk
  have hle : 2 ^ k ≤ 2 ^ k' := Nat.pow_le_pow_right (by norm_num) hkk
  have hwr : WritableBytes r = ((2 ^ k : Nat) : Int) - (W : Int) := by
    have h1 : r.writeIndex ≥ r.readIndex := by rw [hri, hwi]; positivity
    unfold WritableBytes
    rw [if_pos h1, hri, hwi]
    simp only [len, hlen]
    push_cast
    omega
  have hPlen : P ≠ [] → 0 < P.length := fun h => List.length_pos.mpr h
  have hfacts : W % 2 ^ k' = W ∧ W + P.length ≤ 2 ^ k' := by
    by_cases hg : WritableBytes r < len P
    · rw [if_pos hg] at hcond
      obtain ⟨hlt, hge, _⟩ := hcond
      have hlt2 : 2 ^ k < 2 ^ k' := Nat.pow_lt_pow_right (by norm_num) hlt
      rw [hwr] at hge
      simp only [len, hlen] at hge
      have hge' : W + P.length ≤ 2 ^ k' := by
        have : ((W + P.length : Nat) : Int) ≤ ((2 ^ k' : Nat) : Int) := by
          push_cast; push_cast at hge; linarith
        exact_mod_cast this
      exact ⟨Nat.mod_eq_of_lt (by omega), hge'⟩
    · rw [if_neg hg] at hcond
      rw [hcond]
      rw [hwr] at hg
      simp only [len] at hg
      have hfit : W + P.length ≤ 2 ^ k := by
        have : ((W + P.length : Nat) : Int) ≤ ((2 ^ k : Nat) : Int) := by
          push_cast; push_cast at hg; linarith
        exact_mod_cast this
      have hWlt : W < 2 ^ k := by
        rcases hP with h | h
        · have := hPlen h; omega
        · exact h
      exact ⟨Nat.mod_eq_of_lt hWlt, hfit⟩
  obtain ⟨hmod, hfit⟩ := hfacts
  rw [hmod, if_pos (Or.inr hfit)] at heq
  refine ⟨_, k', hkk, heq, ?_, rfl, hri, rfl, hfit, ?_⟩
  · simp only [List.length_append, List.length_take, List.length_drop, hB]
    omega
  · have hlenT : ((grown r k k').take W ++ P).length = W + P.length := by
      simp only [List.length_append, List.length_take, hB]
      omega
    have hT : (grown r k k').take W = r.buf.take W := by
      unfold grown
      exact List.take_append_of_le_length (by omega)
    show List.take (W + P.length) (List.take W (grown r k k') ++ P ++
      List.drop (W + P.length) (grown r k k')) = _
    rw [List.take_left' hlenT, hT]

/-- One `Read` of exactly the readable bytes on a buffer with read index 0 and
write index `W`: it returns the first `W` bytes of the storage and no error. -/
theorem read_all (r : RingBuffer) (k W : Nat) (d : List Byte)
    (hlen : r.buf.length = 2 ^ k) (hmask : r.mask = 2 ^ k - 1)
    (hri : r.readIndex = 0) (hwi : r.writeIndex = (W : Int)) (hW : W ≤ 2 ^ k)
    (hd : d.length = W) :
    ReadableBytes r = (W : Int) ∧
      ∃ r' : RingBuffer, Read r d = .ok (r', r.buf.take W, (W : Int), none) := by
  have hm : ReadableBytes r = (W : Int) := by
    have h1 : r.writeIndex ≥ r.readIndex := by rw [hri, hwi]; positivity
    unfold ReadableBytes
    rw [if_pos h1, hri, hwi]
    omega
  refine ⟨hm, ?_⟩
  obtain ⟨p', heq, hl, hpt⟩ :=
    Read_eq r k 0 W d hlen hmask (by rw [hri]; rfl) (by positivity) hm
  have hp' : p' = r.buf.take W := by
    apply List.ext_getElem?
    intro j
    rw [hpt j, hd, Nat.min_self, List.getElem?_take]
    by_cases hj : j < W
    · rw [if_pos hj, if_pos hj, Nat.zero_add, Nat.mod_eq_of_lt (by omega)]
    · rw [if_neg hj, if_neg hj]
      exact List.getElem?_eq_none (by omega)
  subst hp'
  have hnl : ¬ (W < d.length) := by omega
  rw [if_neg hnl, if_neg hnl] at heq
  have hlenW : len d = (W : Int) := by simp [len, hd]
  rw [hlenW] at heq
  exact ⟨_, heq⟩

/-- A run of `Write` calls with non-empty payloads on a buffer with read index
0 and write index `W`: every call returns its payload length and no error, and
the storage then starts with the old first `W` bytes followed by all payloads
in order. -/
theorem appends (Ps : List (List Byte)) :
    ∀ (r : RingBuffer) (k W : Nat), r.buf.length = 2 ^ k → r.mask = 2 ^ k - 1 →
      r.readIndex = 0 → r.writeIndex = (W : Int) → W ≤ 2 ^ k → (∀ P ∈ Ps, P ≠ []) →
      ∃ (r' : RingBuffer) (k' : Nat),
        writeAll r Ps = .ok (r', Ps.map (fun P => (len P, none))) ∧
        r'.buf.length = 2 ^ k' ∧ r'.mask = 2 ^ k' - 1 ∧ r'.readIndex = 0 ∧
        r'.writeIndex = ((W + Ps.flatten.length : Nat) : Int) ∧
        W + Ps.flatten.length ≤ 2 ^ k' ∧
        r'.buf.take (W + Ps.flatten.length) = r.buf.take W ++ Ps.flatten := by
  induction Ps with
  | nil =>
    intro r k W hlen hmask hri hwi hW _
    exact ⟨r, k, rfl, hlen, hmask, hri, by simpa using hwi, by simpa using hW, by simp⟩
  | cons P Ps ih =>
    intro r k W hlen hmask hri hwi hW hne
    obtain ⟨r1, k1, _, hw, hlen1, hmask1, hri1, hwi1, hfit1, htake1⟩ :=
      append_step r k W P hlen hmask hri hwi hW (Or.inl (hne P (List.mem_cons_self P Ps)))
    obtain ⟨r2, k2, hall, hlen2, hmask2, hri2, hwi2, hfit2, htake2⟩ :=
      ih r1 k1 (W + P.length) hlen1 hmask1 hri1 hwi1 hfit1
        (fun Q hQ => hne Q (List.mem_cons_of_mem P hQ))
    have hsum : W + (P :: Ps).flatten.length = W + P.length + Ps.flatten.length := by
      simp only [List.flatten_cons, List.length_append]; omega
    refine ⟨r2, k2, ?_, hlen2, hmask2, hri2, ?_, ?_, ?_⟩
    · simp only [writeAll, hw, hall, List.map_cons]
    · rw [hsum]; exact hwi2
    · rw [hsum]; exact hfit2
    · rw [hsum, htake2, htake1, List.flatten_cons, List.append_assoc]

theorem len_flatten (Ps : List (List Byte)) : len Ps.flatten = (Ps.map len).sum := by
  induction Ps with
  | nil => rfl
  | cons P Ps ih =>
    simp only [List.flatten_cons, List.map_cons, List.sum_cons, ← ih, len, List.length_append]
    push_cast
    rfl

/-! ## Concrete reachable states -/

theorem Reachable_writeThen (r r' : RingBuffer) (p : List Byte) (h : Reachable r)
    (hw : writeThen r p = .ok r') : Reachable r' := by
  unfold writeThen at hw
  cases hres : Write r p with
  | error f => rw [hres] at hw; exact absurd hw (by simp [Except.map])
  | ok x =>
    obtain ⟨r1, n, e⟩ := x
    rw [hres] at hw
    simp only [Except.map] at hw
    injection hw with hw
    subst hw
    exact Reachable.write r r1 p n e h hres

theorem Reachable_readThen (r r' : RingBuffer) (n : Nat) (h : Reachable r)
    (hr : readThen r n = .ok r') : Reachable r' := by
  unfold readThen at hr
  cases hres : Read r (List.replicate n 0) with
  | error f => rw [hres] at hr; exact absurd hr (by simp [Except.map])
  | ok x =>
    obtain ⟨r1, p', m, e⟩ := x
    rw [hres] at hr
    simp only [Except.map] at hr
    injection hr with hr
    subst hr
    exact Reachable.read r r1 _ p' m e h hres

theorem Reachable_fresh8 : Reachable fresh8 := Reachable.new maxAlloc 8 fresh8 (by decide)

theorem Reachable_wrote1 : Reachable wrote1 :=
  Reachable_writeThen fresh8 wrote1 [1] Reachable_fresh8 (by decide)

theorem Reachable_wrote6 : Reachable wrote6 :=
  Reachable_writeThen fresh8 wrote6 [97, 97, 97, 97, 97, 97] Reachable_fresh8 (by decide)

theorem Reachable_wrote6read2 : Reachable wrote6read2 :=
  Reachable_readThen wrote6 wrote6read2 2 Reachable_wrote6 (by decide)

theorem Reachable_wrote8 : Reachable wrote8 :=
  Reachable_writeThen fresh8 wrote8 [97, 97, 97, 97, 97, 97, 97, 97] Reachable_fresh8
    (by decide)

theorem Reachable_wrote8read6 : Reachable wrote8read6 :=
  Reachable_readThen wrote8 wrote8read6 6 Reachable_wrote8 (by decide)

theorem Reachable_wrapped : Reachable wrapped :=
  Reachable_writeThen wrote8read6 wrapped [98, 98, 98, 98] Reachable_wrote8read6 (by decide)

/-! ## The claims -/

/-- C1, evaluated on the code: after `New(8)`, `Write` of six bytes and `Read`
of two bytes, the state has read index 2 and write index 6, so four bytes are
writable; `Write` of four bytes does not grow the storage and its copy loop
indexes `buf[8]` in storage of length 8: the call panics instead of returning
`(4, nil)`. -/
theorem C1_Write_indexes_out_of_range :
    Reachable wrote6read2 ∧ WritableBytes wrote6read2 = 4 ∧
      Write wrote6read2 [98, 98, 98, 98] = .error Fault.indexOutOfRange :=
  ⟨Reachable_wrote6read2, by decide, by decide⟩

/-- C2, evaluated on the code: after `New(8)`, `Write` of eight bytes and
`Read` of six bytes, two bytes `[97, 97]` are readable and six are writable.
`Write` of six bytes returns `(6, nil)` without growth and leaves the write
index equal to the read index, so the following `Read` into eight bytes
returns `(0, EOF)` and copies nothing, where FIFO order asks for `(8, nil)`
and `[97, 97, 98, 98, 98, 98, 98, 98]`. -/
theorem C2_full_wrapped_buffer_reads_empty :
    Reachable wrote8read6 ∧ ReadableBytes wrote8read6 = 2 ∧
      WritableBytes wrote8read6 = 6 ∧
      (Read wrote8read6 [0, 0]).map (fun x => (x.2.1, x.2.2)) = .ok ([97, 97], 2, none) ∧
      ∃ r1 : RingBuffer,
        Write wrote8read6 [98, 98, 98, 98, 98, 98] = .ok (r1, 6, none) ∧
        r1.readIndex = 6 ∧ r1.writeIndex = 6 ∧
        Read r1 [0, 0, 0, 0, 0, 0, 0, 0] =
          .ok (r1, [0, 0, 0, 0, 0, 0, 0, 0], 0, some GoError.EOF) :=
  ⟨Reachable_wrote8read6, by decide, by decide, by decide,
    ⟨{ buf := [98, 98, 98, 98, 98, 98, 97, 97], mask := 7, readIndex := 6, writeIndex := 6 },
      by decide, rfl, rfl, by decide⟩⟩

/-- C3, evaluated on the code: in the state `wrapped` the six unread bytes
`[97, 97, 98, 98, 98, 98]` span the end of the storage and two bytes are
writable.  `Write` of three bytes grows the storage to 16 and copies to the
positions 4, 5, 6, over the unread byte at position 6; the following `Read`
into nine bytes returns `(1, EOF)` with first byte 99, where the claim asks
for `(9, nil)` and `[97, 97, 98, 98, 98, 98, 99, 99, 99]`. -/
theorem C3_growth_overwrites_unread_bytes :
    Reachable wrapped ∧ ReadableBytes wrapped = 6 ∧ WritableBytes wrapped = 2 ∧
      (Read wrapped [0, 0, 0, 0, 0, 0]).map (fun x => (x.2.1, x.2.2)) =
        .ok ([97, 97, 98, 98, 98, 98], 6, none) ∧
      ∃ r1 : RingBuffer,
        Write wrapped [99, 99, 99] = .ok (r1, 3, none) ∧
        r1.buf = [98, 98, 98, 98, 99, 99, 99, 97, 0, 0, 0, 0, 0, 0, 0, 0] ∧
        (Read r1 [0, 0, 0, 0, 0, 0, 0, 0, 0]).map (fun x => (x.2.1, x.2.2)) =
          .ok ([99, 0, 0, 0, 0, 0, 0, 0, 0], 1, some GoError.EOF) :=
  ⟨Reachable_wrapped, by decide, by decide, by decide,
    ⟨{ buf := [98, 98, 98, 98, 99, 99, 99, 97, 0, 0, 0, 0, 0, 0, 0, 0], mask := 15,
       readIndex := 6, writeIndex := 7 },
      by decide, rfl, by decide⟩⟩

/-- C4, evaluated on the code: `New(8)`, `Write` of eight bytes, `Read` of
eight bytes (exactly the readable bytes).  Both calls return 8 and no error,
the read index wraps to 0 while the write index stays 8, and `ReadableBytes`
is 8 where the bytes written minus the bytes read are 0. -/
theorem C4_ReadableBytes_after_reading_all :
    New maxAlloc 8 = .ok fresh8 ∧
      Write fresh8 [97, 97, 97, 97, 97, 97, 97, 97] = .ok (wrote8, 8, none) ∧
      ReadableBytes wrote8 = 8 ∧
      Read wrote8 [0, 0, 0, 0, 0, 0, 0, 0] =
        .ok (wrote8, [97, 97, 97, 97, 97, 97, 97, 97], 8, none) ∧
      ReadableBytes wrote8 ≠ 8 - 8 :=
  ⟨by decide, by decide, by decide, by decide, by decide⟩

/-- C10: in every state, reachable or not, `ReadableBytes() + WritableBytes()`
equals `len(buf)`. -/
theorem C10_Readable_add_Writable (r : RingBuffer) :
    ReadableBytes r + WritableBytes r = len r.buf := by
  unfold ReadableBytes WritableBytes
  split <;> omega

/-- C9 as stated fails: `New(1 << 62)` seeks storage of `2 ^ 62` bytes, above
what the runtime can allocate (`maxAlloc`), so `make` panics and `New` returns
no buffer. -/
theorem C9_New_allocation_counterexample :
    ¬ (∀ size : Int, size ≤ 2 ^ 62 →
        ∃ (r : RingBuffer) (k : Nat), New maxAlloc size = .ok r ∧
          len r.buf = 2 ^ k ∧ max size 8 ≤ 2 ^ k ∧
          (∀ j : Nat, max size 8 ≤ 2 ^ j → (2 : Int) ^ k ≤ 2 ^ j) ∧
          r.mask = len r.buf - 1 ∧ r.readIndex = 0 ∧ r.writeIndex = 0) := by
  intro h
  obtain ⟨r, _, hnew, _⟩ := h (2 ^ 62) (le_refl _)
  have hcode : New maxAlloc (2 ^ 62) = .error Fault.allocation := by decide
  rw [hcode] at hnew
  exact absurd hnew (by simp)

/-- C9 amended: for every `size ≤ 2 ^ 62` the doubling loop of `New` ends at
the least power of two `2 ^ k` that is at least `max(size, 8)`.  When that
many bytes can be allocated, `New(size)` returns a buffer whose storage has
that length, whose mask is that length minus 1 and whose read and write
indices are 0; when they cannot, `make` fails and `New` returns no buffer. -/
theorem C9_New_storage (limit size : Int) (h : size ≤ 2 ^ 62) :
    ∃ k : Nat, max size 8 ≤ 2 ^ k ∧
      (∀ j : Nat, max size 8 ≤ 2 ^ j → (2 : Int) ^ k ≤ 2 ^ j) ∧
      ((2 : Int) ^ k ≤ limit →
        ∃ r : RingBuffer, New limit size = .ok r ∧ len r.buf = 2 ^ k ∧
          r.mask = len r.buf - 1 ∧ r.readIndex = 0 ∧ r.writeIndex = 0) ∧
      (limit < 2 ^ k → New limit size = .error Fault.allocation) := by
  obtain ⟨k, hk, hge, hmin, heq⟩ := New_eq limit size h
  refine ⟨k, hge, ?_, ?_, ?_⟩
  · intro j hj
    rcases hmin with h3 | hlt
    · subst h3
      have h8 : (8 : Int) ≤ 2 ^ j := le_trans (le_max_right size 8) hj
      simpa using h8
    · have hjk : k - 1 < j := by
        by_contra hcon
        have : (2 : Int) ^ j ≤ 2 ^ (k - 1) := pow_le_pow_right₀ (by norm_num) (by omega)
        omega
      exact pow_le_pow_right₀ (by norm_num) (by omega)
  · intro hl
    rw [if_pos hl] at heq
    exact ⟨_, heq, by simp [len], by simp [len], rfl, rfl⟩
  · intro hl
    rw [if_neg (not_le.mpr hl)] at heq
    exact heq

/-- Witness of C9 amended at `size = 63`, where 64 bytes can be allocated and
`New` returns storage of length 64 with mask 63. -/
theorem C9_New_storage_witness :
    (63 : Int) ≤ 2 ^ 62 ∧
      (New maxAlloc 63).map (fun r => (len r.buf, r.mask, r.readIndex, r.writeIndex)) =
        .ok (64, 63, 0, 0) ∧
      ∃ k : Nat, max (63 : Int) 8 ≤ 2 ^ k ∧
        (∀ j : Nat, max (63 : Int) 8 ≤ 2 ^ j → (2 : Int) ^ k ≤ 2 ^ j) ∧
        ((2 : Int) ^ k ≤ maxAlloc →
          ∃ r : RingBuffer, New maxAlloc 63 = .ok r ∧ len r.buf = 2 ^ k ∧
            r.mask = len r.buf - 1 ∧ r.readIndex = 0 ∧ r.writeIndex = 0) ∧
        (maxAlloc < 2 ^ k → New maxAlloc 63 = .error Fault.allocation) :=
  ⟨by norm_num, by decide, C9_New_storage maxAlloc 63 (by norm_num)⟩

/-- C5: in every reachable state and for every destination `p`, `Read(p)`
returns `n = min(len(p), ReadableBytes())`, with the error `io.EOF` when
`len(p) > ReadableBytes()` and `nil` otherwise. -/
theorem C5_Read_count_and_EOF (r : RingBuffer) (hr : Reachable r) (p : List Byte) :
    ∃ (r' : RingBuffer) (p' : List Byte),
      Read r p = .ok (r', p', min (len p) (ReadableBytes r),
        if len p > ReadableBytes r then some GoError.EOF else none) := by
  obtain ⟨k, ri, wi, _, hlen, hmask, hri, hrlt, hwi, hwle⟩ := Reachable_inv r hr
  obtain ⟨hm, _⟩ := Readable_nat r k ri wi hlen hri hrlt hwi hwle
  generalize (if ri ≤ wi then wi - ri else 2 ^ k - ri + wi) = m at hm
  obtain ⟨p', heq, _, _⟩ := Read_eq r k ri m p hlen hmask hri hrlt hm
  have hn : (if m < p.length then (m : Int) else len p) = min (len p) (ReadableBytes r) := by
    rw [hm]
    by_cases hc : m < p.length
    · have hc' : (m : Int) < len p := by simp only [len]; exact_mod_cast hc
      rw [if_pos hc, min_eq_right (le_of_lt hc')]
    · have hc' : len p ≤ (m : Int) := by
        simp only [len]; exact_mod_cast (not_lt.mp hc)
      rw [if_neg hc, min_eq_left hc']
  have he : (if m < p.length then some GoError.EOF else none) =
      (if len p > ReadableBytes r then some GoError.EOF else none) := by
    rw [hm]
    by_cases hc : m < p.length
    · have hc' : len p > (m : Int) := by simp only [len]; exact_mod_cast hc
      rw [if_pos hc, if_pos hc']
    · have hc' : ¬ (len p > (m : Int)) := by
        simp only [len]; intro h; exact hc (by exact_mod_cast h)
      rw [if_neg hc, if_neg hc']
  rw [hn, he] at heq
  exact ⟨_, p', heq⟩

/-- Witness of C5: one byte stored, a destination of four bytes. -/
theorem C5_Read_count_and_EOF_witness :
    Reachable wrote1 ∧
      ∃ (r' : RingBuffer) (p' : List Byte),
        Read wrote1 [0, 0, 0, 0] = .ok (r', p', min (len [0, 0, 0, 0]) (ReadableBytes wrote1),
          if len [0, 0, 0, 0] > ReadableBytes wrote1 then some GoError.EOF else none) :=
  ⟨Reachable_wrote1, C5_Read_count_and_EOF wrote1 Reachable_wrote1 [0, 0, 0, 0]⟩

/-- C6: in every reachable state, if `Read(p)` returns `n` then for every
`i < n` the byte `p[i]` is `buf[(readIndex + i) & mask]` (storage and read
index as before the call), and every `p[i]` with `i ≥ n` is unchanged. -/
theorem C6_Read_copies_in_ring_order (r : RingBuffer) (hr : Reachable r)
    (p : List Byte) (r' : RingBuffer) (p' : List Byte) (n : Int) (e : Option GoError)
    (h : Read r p = .ok (r', p', n, e)) :
    p'.length = p.length ∧
      (∀ i : Nat, (i : Int) < n →
        ∃ b : Byte, p'[i]? = some b ∧
          index r.buf (band (r.readIndex + (i : Int)) r.mask) = some b) ∧
      (∀ i : Nat, n ≤ (i : Int) → p'[i]? = p[i]?) := by
  obtain ⟨k, ri, wi, _, hlen, hmask, hri, hrlt, hwi, hwle⟩ := Reachable_inv r hr
  obtain ⟨hm, _⟩ := Readable_nat r k ri wi hlen hri hrlt hwi hwle
  obtain ⟨q, heq, hl, hpt⟩ := Read_eq r k ri _ p hlen hmask hri hrlt hm
  generalize (if ri ≤ wi then wi - ri else 2 ^ k - ri + wi) = m at hm heq hpt
  rw [heq] at h
  injection h with h
  injection h with _ h
  injection h with hq h
  injection h with hn _
  subst hq
  have hnmin : n = ((min p.length m : Nat) : Int) := by
    rw [← hn]
    by_cases hc : m < p.length
    · rw [if_pos hc, Nat.min_eq_right (le_of_lt hc)]
    · rw [if_neg hc, Nat.min_eq_left (not_lt.mp hc)]; rfl
  refine ⟨hl, ?_, ?_⟩
  · intro i hi
    have hi' : i < min p.length m := by rw [hnmin] at hi; exact_mod_cast hi
    have hidx : band (r.readIndex + (i : Int)) r.mask = (((ri + i) % 2 ^ k : Nat) : Int) := by
      rw [hri, hmask]
      exact_mod_cast band_mask (ri + i) k
    have hlt : (ri + i) % 2 ^ k < r.buf.length := by
      rw [hlen]; exact Nat.mod_lt _ (by positivity)
    refine ⟨r.buf.get ⟨(ri + i) % 2 ^ k, hlt⟩, ?_, ?_⟩
    · rw [hpt i, if_pos hi']
      simp [hlt]
    · rw [hidx, index_natCast]
      simp [hlt]
  · intro i hi
    have hi' : ¬ (i < min p.length m) := by
      rw [hnmin] at hi
      intro hc
      have : (i : Int) < ((min p.length m : Nat) : Int) := by exact_mod_cast hc
      omega
    rw [hpt i, if_neg hi']

/-- Witness of C6: a read of six bytes that runs across the end of the
storage. -/
theorem C6_Read_copies_in_ring_order_witness :
    Reachable wrapped ∧
      Read wrapped [0, 0, 0, 0, 0, 0] =
        .ok ({ wrapped with readIndex := 4 }, [97, 97, 98, 98, 98, 98], 6, none) ∧
      ([97, 97, 98, 98, 98, 98] : List Byte).length = ([0, 0, 0, 0, 0, 0] : List Byte).length ∧
      (∀ i : Nat, (i : Int) < 6 →
        ∃ b : Byte, ([97, 97, 98, 98, 98, 98] : List Byte)[i]? = some b ∧
          index wrapped.buf (band (wrapped.readIndex + (i : Int)) wrapped.mask) = some b) ∧
      (∀ i : Nat, (6 : Int) ≤ (i : Int) →
        ([97, 97, 98, 98, 98, 98] : List Byte)[i]? = ([0, 0, 0, 0, 0, 0] : List Byte)[i]?) :=
  ⟨Reachable_wrapped, by decide,
    C6_Read_copies_in_ring_order wrapped Reachable_wrapped [0, 0, 0, 0, 0, 0]
      { wrapped with readIndex := 4 } [97, 97, 98, 98, 98, 98] 6 none (by decide)⟩

/-- C7: on every reachable buffer with `readIndex = writeIndex = 0` (fresh
from `New`, or just after `Clear`) and for every payload `P`, `Write(P)`
returns `(len(P), nil)` and a following `Read` into a destination of length
`len(P)` returns `(len(P), nil)` and fills the destination with `P`. -/
theorem C7_roundtrip_at_origin (r : RingBuffer) (hr : Reachable r)
    (h0 : r.readIndex = 0) (h1 : r.writeIndex = 0) (P d : List Byte)
    (hd : d.length = P.length) :
    ∃ r1 r2 : RingBuffer,
      Write r P = .ok (r1, len P, none) ∧ Read r1 d = .ok (r2, P, len P, none) := by
  obtain ⟨k, _, _, _, hlen, hmask, _, _, _, _⟩ := Reachable_inv r hr
  obtain ⟨r1, k', _, hw, hlen1, hmask1, hri1, hwi1, hfit, htake⟩ :=
    append_step r k 0 P hlen hmask h0 (by rw [h1]; rfl) (by positivity)
      (Or.inr (by positivity))
  obtain ⟨_, r2, hread⟩ := read_all r1 k' (0 + P.length) d hlen1 hmask1 hri1 hwi1 hfit
    (by omega)
  rw [htake] at hread
  refine ⟨r1, r2, hw, ?_⟩
  rw [hread]
  simp [len]

/-- Witness of C7: the ten bytes of "helloworld" written to `New(8)`, which
forces growth, and read back. -/
theorem C7_roundtrip_at_origin_witness :
    Reachable fresh8 ∧ fresh8.readIndex = 0 ∧ fresh8.writeIndex = 0 ∧
      ∃ r1 r2 : RingBuffer,
        Write fresh8 [104, 101, 108, 108, 111, 119, 111, 114, 108, 100] =
          .ok (r1, len [104, 101, 108, 108, 111, 119, 111, 114, 108, 100], none) ∧
        Read r1 [0, 0, 0, 0, 0, 0, 0, 0, 0, 0] =
          .ok (r2, [104, 101, 108, 108, 111, 119, 111, 114, 108, 100],
            len [104, 101, 108, 108, 111, 119, 111, 114, 108, 100], none) :=
  ⟨Reachable_fresh8, rfl, rfl,
    C7_roundtrip_at_origin fresh8 Reachable_fresh8 rfl rfl
      [104, 101, 108, 108, 111, 119, 111, 114, 108, 100] [0, 0, 0, 0, 0, 0, 0, 0, 0, 0] rfl⟩

/-- C8: for every size for which `New` returns (in any environment) and every list of non-empty
payloads written in order with no `Read` or `Clear` between them, every
`Write` returns `(len(Pi), nil)`, afterwards `ReadableBytes()` is the sum of
the payload lengths, and one `Read` into a destination of that length returns
`(total, nil)` and fills the destination with `P1 ++ ... ++ Pm`. -/
theorem C8_append_without_reads (limit size : Int) (r : RingBuffer) (Ps : List (List Byte))
    (hnew : New limit size = .ok r) (hne : ∀ P ∈ Ps, P ≠ []) :
    ∃ r' : RingBuffer,
      writeAll r Ps = .ok (r', Ps.map (fun P => (len P, none))) ∧
      ReadableBytes r' = (Ps.map len).sum ∧
      ∀ d : List Byte, len d = (Ps.map len).sum →
        ∃ r'' : RingBuffer, Read r' d = .ok (r'', Ps.flatten, (Ps.map len).sum, none) := by
  obtain ⟨k, hk, hnew⟩ := New_ok_form limit size r hnew
  subst hnew
  obtain ⟨r', k', hall, hlen', hmask', hri', hwi', hfit', htake'⟩ :=
    appends Ps { buf := List.replicate (2 ^ k) 0, mask := 2 ^ k - 1, readIndex := 0,
                 writeIndex := 0 } k 0 (by simp) rfl rfl rfl (by positivity) hne
  simp only [List.take_zero, List.nil_append] at htake'
  have hsum : ((0 + Ps.flatten.length : Nat) : Int) = (Ps.map len).sum := by
    rw [← len_flatten]; simp [len]
  refine ⟨r', hall, ?_, ?_⟩
  · obtain ⟨hm, _⟩ := read_all r' k' (0 + Ps.flatten.length)
      (List.replicate (0 + Ps.flatten.length) 0) hlen' hmask' hri' hwi' hfit' (by simp)
    rw [hm, hsum]
  · intro d hd
    have hdl : d.length = 0 + Ps.flatten.length := by
      rw [← hsum] at hd
      simp only [len] at hd
      exact_mod_cast hd
    obtain ⟨_, r'', hread⟩ := read_all r' k' (0 + Ps.flatten.length) d hlen' hmask' hri' hwi'
      hfit' hdl
    rw [htake', hsum] at hread
    exact ⟨r'', hread⟩

/-- Witness of C8: six bytes and then eighteen bytes written to `New(8)`; the
second write grows the storage to 32. -/
theorem C8_append_without_reads_witness :
    New maxAlloc 8 = .ok fresh8 ∧
      (∀ P ∈ [List.replicate 6 (97 : Byte), List.replicate 18 (98 : Byte)], P ≠ []) ∧
      ∃ r' : RingBuffer,
        writeAll fresh8 [List.replicate 6 97, List.replicate 18 98] =
          .ok (r', [List.replicate 6 (97 : Byte), List.replicate 18 98].map
            (fun P => (len P, none))) ∧
        ReadableBytes r' = ([List.replicate 6 (97 : Byte), List.replicate 18 98].map len).sum ∧
        ∀ d : List Byte,
          len d = ([List.replicate 6 (97 : Byte), List.replicate 18 98].map len).sum →
          ∃ r'' : RingBuffer, Read r' d =
            .ok (r'', [List.replicate 6 (97 : Byte), List.replicate 18 98].flatten,
              ([List.replicate 6 (97 : Byte), List.replicate 18 98].map len).sum, none) :=
  ⟨by decide, by decide,
    C8_append_without_reads maxAlloc 8 fresh8 [List.replicate 6 97, List.replicate 18 98]
      (by decide) (by decide)⟩

/-- The invariant gives the storage shape. -/
theorem Inv_shape (r : RingBuffer) (h : Inv r) : Shape r := by
  obtain ⟨k, _, _, hk, hlen, hmask, _, _, _, _⟩ := h
  have hlenI : len r.buf = 2 ^ k := by simp [len, hlen]
  have h8 : (2 : Int) ^ 3 ≤ 2 ^ k := pow_le_pow_right₀ (by norm_num) hk
  exact ⟨k, hlenI, by rw [hlenI]; omega, by rw [hlenI]; exact hmask⟩

/-- The invariant gives the ranges of the two indices. -/
theorem Inv_ranges (r : RingBuffer) (h : Inv r) :
    (0 ≤ r.readIndex ∧ r.readIndex < len r.buf) ∧
      (0 ≤ r.writeIndex ∧ r.writeIndex ≤ len r.buf) := by
  obtain ⟨k, ri, wi, _, hlen, _, hri, hrlt, hwi, hwle⟩ := h
  have hlenI : len r.buf = ((2 ^ k : Nat) : Int) := by simp [len, hlen]
  rw [hri, hwi, hlenI]
  exact ⟨⟨by positivity, by exact_mod_cast hrlt⟩, ⟨by positivity, by exact_mod_cast hwle⟩⟩

/-- C11: in every state, after `Clear()` the read and write indices are 0,
hence `ReadableBytes()` is 0 and `WritableBytes()` is `len(buf)`, and the
storage and the mask are as before the call. -/
theorem C11_Clear_effect (r : RingBuffer) :
    (Clear r).readIndex = 0 ∧ (Clear r).writeIndex = 0 ∧
      ReadableBytes (Clear r) = 0 ∧ WritableBytes (Clear r) = len r.buf ∧
      (Clear r).buf = r.buf ∧ (Clear r).mask = r.mask := by
  refine ⟨rfl, rfl, ?_, ?_, rfl, rfl⟩
  · simp [ReadableBytes, Clear]
  · simp [WritableBytes, Clear]

/-- C12 as stated fails: on the buffer `New(8)` returns, where no byte is
readable, `Read` into the empty destination returns `(0, nil)`, not
`(0, io.EOF)`. -/
theorem C12_empty_destination_counterexample :
    ¬ (∀ (r : RingBuffer) (p : List Byte), Reachable r → ReadableBytes r = 0 →
        ∃ (r' : RingBuffer) (p' : List Byte), Read r p = .ok (r', p', 0, some GoError.EOF)) := by
  intro h
  obtain ⟨r', p', hread⟩ := h fresh8 [] Reachable_fresh8 (by decide)
  have hcode : Read fresh8 [] = .ok (fresh8, [], 0, none) := by decide
  rw [hcode] at hread
  injection hread with hread
  injection hread with _ hread
  injection hread with _ hread
  injection hread with _ hread
  exact absurd hread (by simp)

/-- C12 amended: in every reachable state with `ReadableBytes() = 0` and for
every non-empty destination `p`, `Read(p)` returns `(0, io.EOF)`; it changes
neither the buffer nor the destination. -/
theorem C12_Read_on_empty (r : RingBuffer) (_hr : Reachable r) (h0 : ReadableBytes r = 0)
    (p : List Byte) (hp : p ≠ []) :
    Read r p = .ok (r, p, 0, some GoError.EOF) := by
  obtain ⟨b, rest, rfl⟩ := List.exists_cons_of_ne_nil hp
  simp [Read, readLoop, h0]

/-- Witness of C12 amended: `New(8)` and a destination of one byte. -/
theorem C12_Read_on_empty_witness :
    Reachable fresh8 ∧ ReadableBytes fresh8 = 0 ∧ ([0] : List Byte) ≠ [] ∧
      Read fresh8 [0] = .ok (fresh8, [0], 0, some GoError.EOF) :=
  ⟨Reachable_fresh8, by decide, by decide,
    C12_Read_on_empty fresh8 Reachable_fresh8 (by decide) [0] (by decide)⟩

/-- C13: `New` returns a buffer with the storage shape, every reachable state
has it, and from a reachable state every `Write` (with or without growth),
`Read` and `Clear` that returns leaves a state that has it. -/
theorem C13_storage_shape (r : RingBuffer) (hr : Reachable r) :
    Shape r ∧
      (∀ (limit size : Int) (r0 : RingBuffer), New limit size = .ok r0 → Shape r0) ∧
      (∀ (p : List Byte) (r' : RingBuffer) (n : Int) (e : Option GoError),
        Write r p = .ok (r', n, e) → Shape r') ∧
      (∀ (p : List Byte) (r' : RingBuffer) (p' : List Byte) (n : Int) (e : Option GoError),
        Read r p = .ok (r', p', n, e) → Shape r') ∧
      Shape (Clear r) :=
  ⟨Inv_shape r (Reachable_inv r hr),
    fun limit size r0 h => Inv_shape r0 (New_inv limit size r0 h),
    fun p r' n e h => Inv_shape r' (Reachable_inv r' (Reachable.write r r' p n e hr h)),
    fun p r' p' n e h => Inv_shape r' (Reachable_inv r' (Reachable.read r r' p p' n e hr h)),
    Inv_shape (Clear r) (Reachable_inv (Clear r) (Reachable.clear r hr))⟩

/-- Witness of C13: the state with the unread bytes wrapped. -/
theorem C13_storage_shape_witness :
    Reachable wrapped ∧ Shape wrapped ∧
      (∀ (limit size : Int) (r0 : RingBuffer), New limit size = .ok r0 → Shape r0) ∧
      (∀ (p : List Byte) (r' : RingBuffer) (n : Int) (e : Option GoError),
        Write wrapped p = .ok (r', n, e) → Shape r') ∧
      (∀ (p : List Byte) (r' : RingBuffer) (p' : List Byte) (n : Int) (e : Option GoError),
        Read wrapped p = .ok (r', p', n, e) → Shape r') ∧
      Shape (Clear wrapped) :=
  ⟨Reachable_wrapped, C13_storage_shape wrapped Reachable_wrapped⟩

/-- C14 as stated fails: after `New(8)` and a `Write` of eight bytes the write
index is 8, the storage length, so it is not below `len(buf)`. -/
theorem C14_writeIndex_reaches_len_counterexample :
    ¬ (∀ r : RingBuffer, Reachable r →
        (0 ≤ r.readIndex ∧ r.readIndex < len r.buf) ∧
          (0 ≤ r.writeIndex ∧ r.writeIndex < len r.buf)) := by
  intro h
  have h8 := (h wrote8 Reachable_wrote8).2.2
  exact absurd h8 (by decide)

/-- C14 amended: in every reachable state `0 ≤ readIndex < len(buf)` and
`0 ≤ writeIndex ≤ len(buf)`. -/
theorem C14_index_ranges (r : RingBuffer) (hr : Reachable r) :
    (0 ≤ r.readIndex ∧ r.readIndex < len r.buf) ∧
      (0 ≤ r.writeIndex ∧ r.writeIndex ≤ len r.buf) :=
  Inv_ranges r (Reachable_inv r hr)

/-- Witness of C14 amended: the state in which the write index equals the
storage length. -/
theorem C14_index_ranges_witness :
    Reachable wrote8 ∧
      (0 ≤ wrote8.readIndex ∧ wrote8.readIndex < len wrote8.buf) ∧
      (0 ≤ wrote8.writeIndex ∧ wrote8.writeIndex ≤ len wrote8.buf) :=
  ⟨Reachable_wrote8, C14_index_ranges wrote8 Reachable_wrote8⟩

/-- In every state `WritableBytes` is the storage length minus `ReadableBytes`. -/
theorem Writable_eq (r : RingBuffer) : WritableBytes r = len r.buf - ReadableBytes r := by
  unfold ReadableBytes WritableBytes
  split <;> omega

/-- In a reachable state `Read` returns, and this is what it returns: the
state with the read index advanced by `n` modulo the storage length, where `n`
is the smaller of the destination length and the readable bytes. -/
theorem Read_reachable (r : RingBuffer) (hr : Reachable r) (p : List Byte) :
    ∃ (k ri wi nn : Nat) (p' : List Byte),
      r.buf.length = 2 ^ k ∧ r.mask = 2 ^ k - 1 ∧
      r.readIndex = (ri : Int) ∧ ri < 2 ^ k ∧ r.writeIndex = (wi : Int) ∧ wi ≤ 2 ^ k ∧
      ReadableBytes r = (((if ri ≤ wi then wi - ri else 2 ^ k - ri + wi) : Nat) : Int) ∧
      nn = min p.length (if ri ≤ wi then wi - ri else 2 ^ k - ri + wi) ∧
      Read r p = .ok ({ r with readIndex := (((ri + nn) % 2 ^ k : Nat) : Int) }, p', (nn : Int),
        if (if ri ≤ wi then wi - ri else 2 ^ k - ri + wi) < p.length
          then some GoError.EOF else none) := by
  obtain ⟨k, ri, wi, _, hlen, hmask, hri, hrlt, hwi, hwle⟩ := Reachable_inv r hr
  obtain ⟨hm, _⟩ := Readable_nat r k ri wi hlen hri hrlt hwi hwle
  obtain ⟨p', heq, _, _⟩ := Read_eq r k ri _ p hlen hmask hri hrlt hm
  refine ⟨k, ri, wi, _, p', hlen, hmask, hri, hrlt, hwi, hwle, hm, rfl, ?_⟩
  rw [heq]
  generalize (if ri ≤ wi then wi - ri else 2 ^ k - ri + wi) = m
  by_cases hc : m < p.length
  · rw [if_pos hc, Nat.min_eq_right (le_of_lt hc)]
  · rw [if_neg hc, Nat.min_eq_left (not_lt.mp hc)]
    rfl

/-- C19: in every reachable state `0 ≤ readIndex < len(buf)` and
`0 ≤ writeIndex ≤ len(buf)`; hence `ReadableBytes()` and `WritableBytes()` lie
in `[0, len(buf)]`, the access `buf[readIndex]` is in range, and `Read`
returns for every destination (it never panics). -/
theorem C19_indices_and_Read_safety (r : RingBuffer) (hr : Reachable r) :
    (0 ≤ r.readIndex ∧ r.readIndex < len r.buf) ∧
      (0 ≤ r.writeIndex ∧ r.writeIndex ≤ len r.buf) ∧
      (0 ≤ ReadableBytes r ∧ ReadableBytes r ≤ len r.buf) ∧
      (0 ≤ WritableBytes r ∧ WritableBytes r ≤ len r.buf) ∧
      (∃ b : Byte, index r.buf r.readIndex = some b) ∧
      (∀ p : List Byte, ∃ x, Read r p = .ok x) := by
  obtain ⟨⟨hr0, hr1⟩, ⟨hw0, hw1⟩⟩ := Inv_ranges r (Reachable_inv r hr)
  refine ⟨⟨hr0, hr1⟩, ⟨hw0, hw1⟩, ?_, ?_, ?_, ?_⟩
  · unfold ReadableBytes
    split <;> constructor <;> omega
  · unfold WritableBytes
    split <;> constructor <;> omega
  · obtain ⟨ri, hri⟩ := Int.eq_ofNat_of_zero_le hr0
    have hlt : ri < r.buf.length := by
      rw [hri] at hr1; simpa [len] using hr1
    exact ⟨r.buf.get ⟨ri, hlt⟩, by rw [hri, index_natCast]; simp⟩
  · intro p
    obtain ⟨_, _, _, _, _, _, _, _, _, _, _, _, _, hread⟩ := Read_reachable r hr p
    exact ⟨_, hread⟩

/-- Witness of C19: the state with the write index at the storage length. -/
theorem C19_indices_and_Read_safety_witness :
    Reachable wrote8 ∧
      (0 ≤ wrote8.readIndex ∧ wrote8.readIndex < len wrote8.buf) ∧
      (0 ≤ wrote8.writeIndex ∧ wrote8.writeIndex ≤ len wrote8.buf) ∧
      (0 ≤ ReadableBytes wrote8 ∧ ReadableBytes wrote8 ≤ len wrote8.buf) ∧
      (0 ≤ WritableBytes wrote8 ∧ WritableBytes wrote8 ≤ len wrote8.buf) ∧
      (∃ b : Byte, index wrote8.buf wrote8.readIndex = some b) ∧
      (∀ p : List Byte, ∃ x, Read wrote8 p = .ok x) :=
  ⟨Reachable_wrote8, C19_indices_and_Read_safety wrote8 Reachable_wrote8⟩

/-- C17: in every reachable state a `Read(p)` that returns `n` leaves the
storage, the mask and the write index unchanged and sets the read index to
`(old readIndex + n) & mask`. -/
theorem C17_Read_frame (r : RingBuffer) (hr : Reachable r) (p : List Byte)
    (r' : RingBuffer) (p' : List Byte) (n : Int) (e : Option GoError)
    (h : Read r p = .ok (r', p', n, e)) :
    r'.buf = r.buf ∧ r'.mask = r.mask ∧ r'.writeIndex = r.writeIndex ∧
      r'.readIndex = band (r.readIndex + n) r.mask := by
  obtain ⟨k, ri, wi, nn, q, _, hmask, hri, _, _, _, _, _, hread⟩ := Read_reachable r hr p
  rw [hread] at h
  injection h with h
  injection h with hr' h
  injection h with _ h
  injection h with hn _
  subst hr' hn
  refine ⟨rfl, rfl, rfl, ?_⟩
  rw [hri, hmask]
  exact_mod_cast (band_mask (ri + nn) k).symm

/-- Witness of C17: a read of six bytes across the end of the storage. -/
theorem C17_Read_frame_witness :
    Reachable wrapped ∧
      Read wrapped [0, 0, 0, 0, 0, 0] =
        .ok ({ wrapped with readIndex := 4 }, [97, 97, 98, 98, 98, 98], 6, none) ∧
      ({ wrapped with readIndex := 4 } : RingBuffer).buf = wrapped.buf ∧
      ({ wrapped with readIndex := 4 } : RingBuffer).mask = wrapped.mask ∧
      ({ wrapped with readIndex := 4 } : RingBuffer).writeIndex = wrapped.writeIndex ∧
      ({ wrapped with readIndex := 4 } : RingBuffer).readIndex =
        band (wrapped.readIndex + 6) wrapped.mask :=
  ⟨Reachable_wrapped, by decide,
    C17_Read_frame wrapped Reachable_wrapped [0, 0, 0, 0, 0, 0]
      { wrapped with readIndex := 4 } [97, 97, 98, 98, 98, 98] 6 none (by decide)⟩

/-- The arithmetic of a read of `nn` bytes on a ring of size `K`: unless the
write index is at `K` and the read takes every readable byte, the readable
count computed from the advanced read index is the old count minus `nn`. -/
theorem readable_after_read (K ri wi nn : Nat) (hri : ri < K) (hwi : wi ≤ K)
    (hnn : nn ≤ (if ri ≤ wi then wi - ri else K - ri + wi))
    (hc : wi < K ∨ nn < (if ri ≤ wi then wi - ri else K - ri + wi)) :
    (if (ri + nn) % K ≤ wi then wi - (ri + nn) % K else K - (ri + nn) % K + wi) + nn =
      (if ri ≤ wi then wi - ri else K - ri + wi) := by
  have hm : (if ri ≤ wi then wi - ri else K - ri + wi) ≤ K := by
    split_ifs <;> omega
  have hcases : ((ri + nn) % K = ri + nn ∧ ri + nn < K) ∨
      ((ri + nn) % K = ri + nn - K ∧ K ≤ ri + nn) := by
    rcases Nat.lt_or_ge (ri + nn) K with h | h
    · exact Or.inl ⟨Nat.mod_eq_of_lt h, h⟩
    · refine Or.inr ⟨?_, h⟩
      rw [Nat.mod_eq_sub_mod h, Nat.mod_eq_of_lt (by omega)]
  generalize (ri + nn) % K = ri' at hcases ⊢
  split_ifs at hnn hc hm ⊢ <;> omega

/-- C20: in every reachable state, if `Read(p)` returns `n` and the write
index is below `len(buf)` or `n` is less than the bytes readable before the
call, then `ReadableBytes()` has decreased by `n` and `WritableBytes()` has
increased by `n`. -/
theorem C20_Read_accounting (r : RingBuffer) (hr : Reachable r) (p : List Byte)
    (r' : RingBuffer) (p' : List Byte) (n : Int) (e : Option GoError)
    (h : Read r p = .ok (r', p', n, e))
    (hc : r.writeIndex < len r.buf ∨ n < ReadableBytes r) :
    ReadableBytes r' = ReadableBytes r - n ∧ WritableBytes r' = WritableBytes r + n := by
  obtain ⟨k, ri, wi, nn, q, hlen, hmask, hri, hrlt, hwi, hwle, hm, hnn, hread⟩ :=
    Read_reachable r hr p
  rw [hread] at h
  injection h with h
  injection h with hr' h
  injection h with _ h
  injection h with hn _
  subst hr' hn
  have hK : 0 < 2 ^ k := by positivity
  obtain ⟨hm', _⟩ := Readable_nat
    { r with readIndex := (((ri + nn) % 2 ^ k : Nat) : Int) } k ((ri + nn) % 2 ^ k) wi
    hlen rfl (Nat.mod_lt _ hK) hwi hwle
  have hc' : wi < 2 ^ k ∨ nn < (if ri ≤ wi then wi - ri else 2 ^ k - ri + wi) := by
    rcases hc with h1 | h2
    · left
      rw [hwi] at h1
      simp only [len, hlen] at h1
      exact_mod_cast h1
    · right
      rw [hm] at h2
      exact_mod_cast h2
  have hle : nn ≤ (if ri ≤ wi then wi - ri else 2 ^ k - ri + wi) := by
    rw [hnn]; exact Nat.min_le_right _ _
  have key := readable_after_read (2 ^ k) ri wi nn hrlt hwle hle hc'
  have hR : ReadableBytes { r with readIndex := (((ri + nn) % 2 ^ k : Nat) : Int) } =
      ReadableBytes r - (nn : Int) := by
    rw [hm', hm, ← key]
    push_cast
    omega
  refine ⟨hR, ?_⟩
  rw [Writable_eq, Writable_eq r, hR]
  show len r.buf - (ReadableBytes r - (nn : Int)) = len r.buf - ReadableBytes r + (nn : Int)
  omega

/-- Witness of C20: four of eight readable bytes read while the write index
is at the storage length. -/
theorem C20_Read_accounting_witness :
    Reachable wrote8 ∧
      Read wrote8 [0, 0, 0, 0] =
        .ok ({ wrote8 with readIndex := 4 }, [97, 97, 97, 97], 4, none) ∧
      (wrote8.writeIndex < len wrote8.buf ∨ (4 : Int) < ReadableBytes wrote8) ∧
      ReadableBytes { wrote8 with readIndex := 4 } = ReadableBytes wrote8 - 4 ∧
      WritableBytes { wrote8 with readIndex := 4 } = WritableBytes wrote8 + 4 :=
  ⟨Reachable_wrote8, by decide, by decide,
    C20_Read_accounting wrote8 Reachable_wrote8 [0, 0, 0, 0]
      { wrote8 with readIndex := 4 } [97, 97, 97, 97] 4 none (by decide) (by decide)⟩

/-! ## What a `Write` that returns has done -/

/-- Pointwise form of a splice of `p` into `B` at `s`. -/
theorem splice_getElem? (B p : List Byte) (s : Nat) (hfit : s + p.length ≤ B.length)
    (j : Nat) :
    (B.take s ++ p ++ B.drop (s + p.length))[j]? =
      if s ≤ j ∧ j < s + p.length then p[j - s]? else B[j]? := by
  have hs : (B.take s).length = s := by
    rw [List.length_take]; omega
  rw [List.append_assoc, List.getElem?_append, hs]
  by_cases h1 : j < s
  · have c : ¬ (s ≤ j ∧ j < s + p.length) := by omega
    rw [if_pos h1, if_neg c, List.getElem?_take, if_pos h1]
  · rw [if_neg h1, List.getElem?_append]
    by_cases h2 : j - s < p.length
    · have c : s ≤ j ∧ j < s + p.length := by omega
      rw [if_pos h2, if_pos c]
    · have c : ¬ (s ≤ j ∧ j < s + p.length) := by omega
      rw [if_neg h2, if_neg c, List.getElem?_drop]
      congr 1
      omega

theorem splice_length (B p : List Byte) (s : Nat) (hfit : s + p.length ≤ B.length) :
    (B.take s ++ p ++ B.drop (s + p.length)).length = B.length := by
  simp only [List.length_append, List.length_take, List.length_drop]
  omega

/-- Pointwise form of the storage after the optional growth. -/
theorem grown_getElem? (r : RingBuffer) (k k' : Nat) (hlen : r.buf.length = 2 ^ k)
    (hk : k ≤ k') (j : Nat) :
    (grown r k k')[j]? =
      if j < r.buf.length then r.buf[j]? else if j < 2 ^ k' then some 0 else none := by
  have hle : 2 ^ k ≤ 2 ^ k' := Nat.pow_le_pow_right (by norm_num) hk
  unfold grown
  rw [List.getElem?_append]
  by_cases h1 : j < r.buf.length
  · rw [if_pos h1, if_pos h1]
  · rw [if_neg h1, if_neg h1, List.getElem?_replicate]
    by_cases h2 : j < 2 ^ k'
    · rw [if_pos h2, if_pos (by omega)]
    · rw [if_neg h2, if_neg (by omega)]

/-- A `Write` that returns from a reachable state: the storage has length
`2 ^ k` before and `2 ^ k'` after the optional growth, the payload has been
spliced into the grown storage at `s = wi % 2 ^ k'`, where it fits. -/
theorem Write_ok_form (r : RingBuffer) (hr : Reachable r) (p : List Byte)
    (r' : RingBuffer) (n : Int) (e : Option GoError) (hw : Write r p = .ok (r', n, e)) :
    ∃ k ri wi k' : Nat,
      3 ≤ k ∧ r.buf.length = 2 ^ k ∧ r.mask = 2 ^ k - 1 ∧
      r.readIndex = (ri : Int) ∧ ri < 2 ^ k ∧ r.writeIndex = (wi : Int) ∧ wi ≤ 2 ^ k ∧
      k ≤ k' ∧
      (if WritableBytes r < len p then
         k < k' ∧ len r.buf + len p - WritableBytes r ≤ 2 ^ k' ∧
           (k' = k + 1 ∨ (2 : Int) ^ (k' - 1) < len r.buf + len p - WritableBytes r)
       else k' = k) ∧
      wi % 2 ^ k' + p.length ≤ 2 ^ k' ∧
      r' = { buf := (grown r k k').take (wi % 2 ^ k') ++ p ++
                      (grown r k k').drop (wi % 2 ^ k' + p.length),
             mask := 2 ^ k' - 1,
             readIndex := r.readIndex,
             writeIndex := ((wi % 2 ^ k' + p.length : Nat) : Int) } ∧
      n = len p ∧ e = none := by
  obtain ⟨k, ri, wi, hk, hlen, hmask, hri, hrlt, hwi, hwle⟩ := Reachable_inv r hr
  obtain ⟨k', hkk, hcond, heq⟩ := Write_eq r k wi p hlen hmask hwi
  have hmod : wi % 2 ^ k' < 2 ^ k' := Nat.mod_lt _ (by positivity)
  rw [heq] at hw
  by_cases hc : p = [] ∨ wi % 2 ^ k' + p.length ≤ 2 ^ k'
  · rw [if_pos hc] at hw
    injection hw with hw
    injection hw with h1 h2
    injection h2 with h2 h3
    have hfit : wi % 2 ^ k' + p.length ≤ 2 ^ k' := by
      rcases hc with h0 | h0
      · subst h0; simp; omega
      · exact h0
    exact ⟨k, ri, wi, k', hk, hlen, hmask, hri, hrlt, hwi, hwle, hkk, hcond, hfit,
      h1.symm, h2.symm, h3.symm⟩
  · rw [if_neg hc] at hw
    exact absurd hw (by simp)

/-- The write of eighteen bytes to `wrote6` returns the state `wrote24`. -/
theorem Write_wrote6_grows :
    Write wrote6 (List.replicate 18 98) = .ok (wrote24, 18, none) := by
  decide

/-- C15: for a `Write(p)` that returns from a reachable state, `len(buf)` is
unchanged when `len(p) ≤ WritableBytes()`; otherwise the new `len(buf)` is the
least power of two that is at least `len(buf) + len(p) - WritableBytes()` (old
values) and it is at least twice the old length.  In both cases the mask is
the new length minus 1 and `len(buf)` has not decreased. -/
theorem C15_growth_size (r : RingBuffer) (hr : Reachable r) (p : List Byte)
    (r' : RingBuffer) (n : Int) (e : Option GoError) (hw : Write r p = .ok (r', n, e)) :
    (len p ≤ WritableBytes r → len r'.buf = len r.buf) ∧
      (WritableBytes r < len p →
        ∃ k' : Nat, len r'.buf = 2 ^ k' ∧
          len r.buf + len p - WritableBytes r ≤ 2 ^ k' ∧
          (∀ j : Nat, len r.buf + len p - WritableBytes r ≤ 2 ^ j → (2 : Int) ^ k' ≤ 2 ^ j) ∧
          2 * len r.buf ≤ len r'.buf) ∧
      r'.mask = len r'.buf - 1 ∧ len r.buf ≤ len r'.buf := by
  obtain ⟨k, ri, wi, k', _, hlen, _, _, _, _, _, hkk, hcond, hfit, hr', _, _⟩ :=
    Write_ok_form r hr p r' n e hw
  have hB : (grown r k k').length = 2 ^ k' := grown_length r k k' hlen hkk
  have hlen' : r'.buf.length = 2 ^ k' := by
    rw [hr']
    exact (splice_length (grown r k k') p (wi % 2 ^ k') (by rw [hB]; exact hfit)).trans hB
  have hlenI : len r.buf = 2 ^ k := by simp [len, hlen]
  have hlenI' : len r'.buf = 2 ^ k' := by simp [len, hlen']
  have hmono : (2 : Int) ^ k ≤ 2 ^ k' := pow_le_pow_right₀ (by norm_num) hkk
  refine ⟨?_, ?_, ?_, ?_⟩
  · intro hle
    rw [if_neg (not_lt.mpr hle)] at hcond
    rw [hlenI', hlenI, hcond]
  · intro hlt
    rw [if_pos hlt] at hcond
    obtain ⟨hkk', hge, hmin⟩ := hcond
    refine ⟨k', hlenI', hge, ?_, ?_⟩
    · intro j hj
      have hjk : k' - 1 < j := by
        by_contra hcon
        have h1 : (2 : Int) ^ j ≤ 2 ^ (k' - 1) := pow_le_pow_right₀ (by norm_num) (by omega)
        rcases hmin with h0 | h0
        · have h2 : k' - 1 = k := by omega
          rw [h2] at h1
          rw [hlenI] at hj
          omega
        · omega
      exact pow_le_pow_right₀ (by norm_num) (by omega)
    · have h2 : (2 : Int) ^ (k + 1) ≤ 2 ^ k' := pow_le_pow_right₀ (by norm_num) (by omega)
      rw [hlenI', hlenI]
      rw [pow_succ] at h2
      omega
  · rw [hlenI', hr']
  · rw [hlenI', hlenI]
    exact hmono

/-- Witness of C15: the write of eighteen bytes with two writable grows the
storage from 8 to 32. -/
theorem C15_growth_size_witness :
    Reachable wrote6 ∧ Write wrote6 (List.replicate 18 98) = .ok (wrote24, 18, none) ∧
      (len (List.replicate 18 (98 : Byte)) ≤ WritableBytes wrote6 →
        len wrote24.buf = len wrote6.buf) ∧
      (WritableBytes wrote6 < len (List.replicate 18 (98 : Byte)) →
        ∃ k' : Nat, len wrote24.buf = 2 ^ k' ∧
          len wrote6.buf + len (List.replicate 18 (98 : Byte)) - WritableBytes wrote6 ≤ 2 ^ k' ∧
          (∀ j : Nat,
            len wrote6.buf + len (List.replicate 18 (98 : Byte)) - WritableBytes wrote6 ≤ 2 ^ j →
              (2 : Int) ^ k' ≤ 2 ^ j) ∧
          2 * len wrote6.buf ≤ len wrote24.buf) ∧
      wrote24.mask = len wrote24.buf - 1 ∧ len wrote6.buf ≤ len wrote24.buf :=
  ⟨Reachable_wrote6, Write_wrote6_grows,
    C15_growth_size wrote6 Reachable_wrote6 (List.replicate 18 98) wrote24 18 none
      Write_wrote6_grows⟩

/-- C16: for a `Write(p)` that returns from a reachable state, with `m` the
mask after the optional growth and `s = (old writeIndex) & m`: the write index
becomes `s + len(p)`, `buf[s + i] = p[i]` for every `i < len(p)`, every
position below the old length and outside `[s, s + len(p))` keeps its byte,
every position added by growth outside that range is 0, and the read index is
unchanged. -/
theorem C16_Write_effect (r : RingBuffer) (hr : Reachable r) (p : List Byte)
    (r' : RingBuffer) (n : Int) (e : Option GoError) (hw : Write r p = .ok (r', n, e)) :
    ∃ s : Nat, (s : Int) = band r.writeIndex r'.mask ∧
      r'.writeIndex = (s : Int) + len p ∧
      (∀ i : Nat, i < p.length → r'.buf[s + i]? = p[i]?) ∧
      (∀ j : Nat, j < r.buf.length → ¬ (s ≤ j ∧ j < s + p.length) →
        r'.buf[j]? = r.buf[j]?) ∧
      (∀ j : Nat, r.buf.length ≤ j → j < r'.buf.length → ¬ (s ≤ j ∧ j < s + p.length) →
        r'.buf[j]? = some 0) ∧
      r'.readIndex = r.readIndex := by
  obtain ⟨k, ri, wi, k', _, hlen, _, _, _, hwi, _, hkk, _, hfit, hr', _, _⟩ :=
    Write_ok_form r hr p r' n e hw
  have hB : (grown r k k').length = 2 ^ k' := grown_length r k k' hlen hkk
  have hfitB : wi % 2 ^ k' + p.length ≤ (grown r k k').length := by rw [hB]; exact hfit
  have hlen' : r'.buf.length = 2 ^ k' := by
    rw [hr']
    exact (splice_length (grown r k k') p (wi % 2 ^ k') hfitB).trans hB
  have hpt : ∀ j : Nat, r'.buf[j]? =
      if wi % 2 ^ k' ≤ j ∧ j < wi % 2 ^ k' + p.length then p[j - wi % 2 ^ k']?
      else (grown r k k')[j]? := by
    intro j
    rw [hr']
    exact splice_getElem? (grown r k k') p (wi % 2 ^ k') hfitB j
  refine ⟨wi % 2 ^ k', ?_, ?_, ?_, ?_, ?_, ?_⟩
  · rw [hr', hwi]
    exact (band_mask wi k').symm
  · rw [hr']
    simp only [len]
    push_cast
    rfl
  · intro i hi
    rw [hpt, if_pos (by omega)]
    congr 1
    omega
  · intro j hj hout
    rw [hpt, if_neg hout, grown_getElem? r k k' hlen hkk, if_pos hj]
  · intro j hj hj' hout
    rw [hlen'] at hj'
    rw [hpt, if_neg hout, grown_getElem? r k k' hlen hkk, if_neg (by omega), if_pos hj']
  · rw [hr']

/-- Witness of C16: four bytes written with the write index at the storage
length, so that `s = 8 & 7 = 0`. -/
theorem C16_Write_effect_witness :
    Reachable wrote8read6 ∧ Write wrote8read6 [98, 98, 98, 98] = .ok (wrapped, 4, none) ∧
      ∃ s : Nat, (s : Int) = band wrote8read6.writeIndex wrapped.mask ∧
        wrapped.writeIndex = (s : Int) + len [98, 98, 98, 98] ∧
        (∀ i : Nat, i < ([98, 98, 98, 98] : List Byte).length →
          wrapped.buf[s + i]? = ([98, 98, 98, 98] : List Byte)[i]?) ∧
        (∀ j : Nat, j < wrote8read6.buf.length →
          ¬ (s ≤ j ∧ j < s + ([98, 98, 98, 98] : List Byte).length) →
          wrapped.buf[j]? = wrote8read6.buf[j]?) ∧
        (∀ j : Nat, wrote8read6.buf.length ≤ j → j < wrapped.buf.length →
          ¬ (s ≤ j ∧ j < s + ([98, 98, 98, 98] : List Byte).length) →
          wrapped.buf[j]? = some 0) ∧
        wrapped.readIndex = wrote8read6.readIndex :=
  ⟨Reachable_wrote8read6, by decide,
    C16_Write_effect wrote8read6 Reachable_wrote8read6 [98, 98, 98, 98] wrapped 4 none
      (by decide)⟩

/-- The write of the empty payload in a reachable state: it returns, leaves
the storage, the mask and the read index as they are, and reduces the write
index modulo the storage length. -/
theorem Write_nil (r : RingBuffer) (hr : Reachable r) :
    ∃ k ri wi : Nat, 3 ≤ k ∧ r.buf.length = 2 ^ k ∧
      r.readIndex = (ri : Int) ∧ ri < 2 ^ k ∧ r.writeIndex = (wi : Int) ∧ wi ≤ 2 ^ k ∧
      Write r [] = .ok ({ r with writeIndex := ((wi % 2 ^ k : Nat) : Int) }, 0, none) := by
  obtain ⟨k, ri, wi, hk, hlen, hmask, hri, hrlt, hwi, hwle⟩ := Reachable_inv r hr
  obtain ⟨k', _, hcond, heq⟩ := Write_eq r k wi [] hlen hmask hwi
  have hW : ¬ (WritableBytes r < len []) := by
    have hlenI : len r.buf = ((2 ^ k : Nat) : Int) := by simp [len, hlen]
    unfold WritableBytes
    rw [hri, hwi, hlenI]
    simp only [len, List.length_nil]
    split <;> omega
  rw [if_neg hW] at hcond
  subst hcond
  refine ⟨k', ri, wi, hk, hlen, hri, hrlt, hwi, hwle, ?_⟩
  rw [heq, if_pos (Or.inl rfl)]
  have hbuf : (grown r k' k').take (wi % 2 ^ k') ++ [] ++
      (grown r k' k').drop (wi % 2 ^ k' + ([] : List Byte).length) = r.buf := by
    simp [grown]
  rw [hbuf, ← hmask]
  rfl

/-- C18: in every reachable state the write of the empty payload returns
`(0, nil)` and leaves the storage unchanged; it leaves `ReadableBytes()` and
`WritableBytes()` unchanged exactly when `WritableBytes() > 0`, which is when
not (`writeIndex = len(buf)` and `readIndex = 0`); in the completely full
state it changes `ReadableBytes()` from `len(buf)` to 0. -/
theorem C18_zero_length_write (r : RingBuffer) (hr : Reachable r) :
    ∃ r' : RingBuffer, Write r [] = .ok (r', 0, none) ∧ r'.buf = r.buf ∧
      ((ReadableBytes r' = ReadableBytes r ∧ WritableBytes r' = WritableBytes r) ↔
        0 < WritableBytes r) ∧
      (0 < WritableBytes r ↔ ¬ (r.writeIndex = len r.buf ∧ r.readIndex = 0)) ∧
      (¬ (0 < WritableBytes r) →
        ReadableBytes r = len r.buf ∧ 0 < len r.buf ∧ ReadableBytes r' = 0) := by
  obtain ⟨k, ri, wi, hk, hlen, hri, hrlt, hwi, hwle, hw⟩ := Write_nil r hr
  refine ⟨_, hw, rfl, ?_⟩
  have hlenI : len r.buf = ((2 ^ k : Nat) : Int) := by simp [len, hlen]
  have h8 : 2 ^ 3 ≤ 2 ^ k := Nat.pow_le_pow_right (by norm_num) hk
  have hcases : (wi < 2 ^ k ∧ wi % 2 ^ k = wi) ∨ (wi = 2 ^ k ∧ wi % 2 ^ k = 0) := by
    rcases Nat.lt_or_ge wi (2 ^ k) with h | h
    · exact Or.inl ⟨h, Nat.mod_eq_of_lt h⟩
    · have : wi = 2 ^ k := by omega
      exact Or.inr ⟨this, by rw [this, Nat.mod_self]⟩
  simp only [ReadableBytes, WritableBytes, hri, hwi, hlenI]
  generalize wi % 2 ^ k = wi' at hcases
  generalize 2 ^ k = K at hrlt hwle h8 hcases
  refine ⟨?_, ?_, ?_⟩
  · constructor
    · intro h
      split_ifs at h ⊢ <;> omega
    · intro h
      split_ifs at h ⊢ <;> omega
  · constructor
    · intro h
      split_ifs at h <;> omega
    · intro h
      split_ifs <;> omega
  · intro h
    split_ifs at h ⊢ <;> omega

/-- Witness of C18: the completely full buffer, where the write of the empty
payload turns eight readable bytes into none. -/
theorem C18_zero_length_write_witness :
    Reachable wrote8 ∧ WritableBytes wrote8 = 0 ∧
      Write wrote8 [] = .ok ({ wrote8 with writeIndex := 0 }, 0, none) ∧
      ReadableBytes wrote8 = 8 ∧ ReadableBytes { wrote8 with writeIndex := 0 } = 0 ∧
      ∃ r' : RingBuffer, Write wrote8 [] = .ok (r', 0, none) ∧ r'.buf = wrote8.buf ∧
        ((ReadableBytes r' = ReadableBytes wrote8 ∧ WritableBytes r' = WritableBytes wrote8) ↔
          0 < WritableBytes wrote8) ∧
        (0 < WritableBytes wrote8 ↔ ¬ (wrote8.writeIndex = len wrote8.buf ∧ wrote8.readIndex = 0)) ∧
        (¬ (0 < WritableBytes wrote8) →
          ReadableBytes wrote8 = len wrote8.buf ∧ 0 < len wrote8.buf ∧ ReadableBytes r' = 0) :=
  ⟨Reachable_wrote8, by decide, by decide, by decide, by decide,
    C18_zero_length_write wrote8 Reachable_wrote8⟩

end Ringbuffer
